import Mathlib

/-!
Verification of the rockyou2024 indexing and search engine.

The Rust sources are shallowly embedded over `List Nat` (byte strings,
each element < 256) and `List Char` (decoded text).  Machine integers in
the sources are `usize` values used only as lengths and indices, so they
are modelled as `Nat`; saturating subtraction (`usize::saturating_sub`)
coincides with truncated `Nat` subtraction.  Fallible operations and Rust
panics are modelled with `Option`/flags: a `none` result marks a code
path on which the Rust program would panic or diverge.
-/

set_option maxRecDepth 4000

namespace RockYou

/-! ## Byte-level helpers -/

/-- The newline byte used as the line separator throughout the sources. -/
def nlByte : Nat := 10

/-- Model of `BufRead::read_until`: split a byte stream into the segment up
to and including the first occurrence of `sep` (the whole stream if `sep`
does not occur) and the remainder. -/
def readUntilSplit (sep : Nat) : List Nat → List Nat × List Nat
  | [] => ([], [])
  | b :: rest =>
    if b = sep then ([b], rest)
    else
      let pr := readUntilSplit sep rest
      (b :: pr.1, pr.2)

/-- Model of `BufRead::read_line` ignoring the trailing remainder: the bytes
from the stream up to and including the first `sep`, or the whole stream. -/
def takeThrough (sep : Nat) : List Nat → List Nat
  | [] => []
  | b :: rest => if b = sep then [sep] else b :: takeThrough sep rest

/-- Model of `str::lines` / `BufRead::lines` splitting on `\n`: auxiliary
with an accumulator of the current (reversed) line. -/
def linesOfAux (cur : List Nat) : List Nat → List (List Nat)
  | [] => if cur.isEmpty then [] else [cur.reverse]
  | b :: rest =>
    if b = nlByte then cur.reverse :: linesOfAux [] rest
    else linesOfAux (b :: cur) rest

/-- The `\n`-separated lines of a byte string (a trailing newline produces
no final empty line, matching `str::lines`). -/
def linesOf (c : List Nat) : List (List Nat) := linesOfAux [] c

/-- A byte string that is a whole number of `\n`-terminated lines, none of
which contains `\n` internally: the `IndexFile` buffer/file shape. -/
def IsLineFlat (b : List Nat) : Prop :=
  ∃ ls : List (List Nat), (∀ l ∈ ls, nlByte ∉ l) ∧
    b = (ls.map (fun l => l ++ [nlByte])).flatten

/-! ## UTF-8 (model of `String::from_utf8_lossy` and re-encoding)

The decoder follows the standard UTF-8 ranges, substituting U+FFFD for
each maximal invalid subpart, as Rust's lossy decoding does.  Only the
shapes reachable by the claims (valid sequences, and isolated invalid
bytes) matter, and those follow the standard exactly. -/

/-- The replacement character U+FFFD. -/
def replChar : Char := Char.ofNat 0xFFFD

/-- Is `b` a UTF-8 continuation byte? -/
def isCont (b : Nat) : Bool := 0x80 ≤ b ∧ b ≤ 0xBF

/-- Valid second byte for a three-byte sequence with lead `b0`. -/
def isCont3 (b0 b : Nat) : Bool :=
  if b0 = 0xE0 then 0xA0 ≤ b ∧ b ≤ 0xBF
  else if b0 = 0xED then 0x80 ≤ b ∧ b ≤ 0x9F
  else isCont b

/-- Valid second byte for a four-byte sequence with lead `b0`. -/
def isCont4 (b0 b : Nat) : Bool :=
  if b0 = 0xF0 then 0x90 ≤ b ∧ b ≤ 0xBF
  else if b0 = 0xF4 then 0x80 ≤ b ∧ b ≤ 0x8F
  else isCont b

/-- Lossy UTF-8 decoding, structurally recursive on a fuel bound (one unit
of fuel per consumed lead byte; `utf8DecodeLossy` supplies enough). -/
def utf8DecodeLossyFuel : Nat → List Nat → List Char
  | 0, _ => []
  | _, [] => []
  | f + 1, b0 :: rest =>
    if b0 < 0x80 then Char.ofNat b0 :: utf8DecodeLossyFuel f rest
    else if 0xC2 ≤ b0 ∧ b0 ≤ 0xDF then
      match rest with
      | [] => [replChar]
      | b1 :: rest1 =>
        if isCont b1 then
          Char.ofNat ((b0 - 0xC0) * 64 + (b1 - 0x80)) :: utf8DecodeLossyFuel f rest1
        else replChar :: utf8DecodeLossyFuel f (b1 :: rest1)
    else if 0xE0 ≤ b0 ∧ b0 ≤ 0xEF then
      match rest with
      | [] => [replChar]
      | b1 :: rest1 =>
        if isCont3 b0 b1 then
          match rest1 with
          | [] => [replChar]
          | b2 :: rest2 =>
            if isCont b2 then
              Char.ofNat ((b0 - 0xE0) * 4096 + (b1 - 0x80) * 64 + (b2 - 0x80)) ::
                utf8DecodeLossyFuel f rest2
            else replChar :: utf8DecodeLossyFuel f (b2 :: rest2)
        else replChar :: utf8DecodeLossyFuel f (b1 :: rest1)
    else if 0xF0 ≤ b0 ∧ b0 ≤ 0xF4 then
      match rest with
      | [] => [replChar]
      | b1 :: rest1 =>
        if isCont4 b0 b1 then
          match rest1 with
          | [] => [replChar]
          | b2 :: rest2 =>
            if isCont b2 then
              match rest2 with
              | [] => [replChar]
              | b3 :: rest3 =>
                if isCont b3 then
                  Char.ofNat ((b0 - 0xF0) * 262144 + (b1 - 0x80) * 4096 +
                      (b2 - 0x80) * 64 + (b3 - 0x80)) :: utf8DecodeLossyFuel f rest3
                else replChar :: utf8DecodeLossyFuel f (b3 :: rest3)
            else replChar :: utf8DecodeLossyFuel f (b2 :: rest2)
        else replChar :: utf8DecodeLossyFuel f (b1 :: rest1)
    else replChar :: utf8DecodeLossyFuel f rest

/-- Lossy UTF-8 decoding of a byte string (model of
`String::from_utf8_lossy`). -/
def utf8DecodeLossy (l : List Nat) : List Char := utf8DecodeLossyFuel l.length l

/-- Standard UTF-8 encoding of one scalar value. -/
def utf8EncodeChar (c : Char) : List Nat :=
  let n := c.toNat
  if n < 0x80 then [n]
  else if n < 0x800 then [0xC0 + n / 64, 0x80 + n % 64]
  else if n < 0x10000 then
    [0xE0 + n / 4096, 0x80 + (n / 64) % 64, 0x80 + n % 64]
  else
    [0xF0 + n / 262144, 0x80 + (n / 4096) % 64, 0x80 + (n / 64) % 64, 0x80 + n % 64]

/-- UTF-8 encoding of a character sequence (model of `String::as_bytes`). -/
def utf8Encode (cs : List Char) : List Nat := (cs.map utf8EncodeChar).flatten

/-! ## Character predicates (models of the Rust `char` methods used) -/

/-- Model of `char::is_ascii_alphanumeric`. -/
def isAsciiAlphanumeric (c : Char) : Bool :=
  let n := c.toNat
  (48 ≤ n ∧ n ≤ 57) ∨ (65 ≤ n ∧ n ≤ 90) ∨ (97 ≤ n ∧ n ≤ 122)

/-- Model of `char::is_whitespace` (the Unicode `White_Space` set). -/
def isRustWhitespace (c : Char) : Bool :=
  let n := c.toNat
  n = 0x9 ∨ n = 0xA ∨ n = 0xB ∨ n = 0xC ∨ n = 0xD ∨ n = 0x20 ∨
    n = 0x85 ∨ n = 0xA0 ∨ n = 0x1680 ∨ (0x2000 ≤ n ∧ n ≤ 0x200A) ∨
    n = 0x2028 ∨ n = 0x2029 ∨ n = 0x202F ∨ n = 0x205F ∨ n = 0x3000

/-- Model of `char::is_control` (Unicode `Cc`: C0 and C1 controls). -/
def isRustControl (c : Char) : Bool :=
  let n := c.toNat
  n ≤ 0x1F ∨ (0x7F ≤ n ∧ n ≤ 0x9F)

/-- Model of `char::is_ascii_punctuation`. -/
def isAsciiPunct (c : Char) : Bool :=
  let n := c.toNat
  (33 ≤ n ∧ n ≤ 47) ∨ (58 ≤ n ∧ n ≤ 64) ∨ (91 ≤ n ∧ n ≤ 96) ∨ (123 ≤ n ∧ n ≤ 126)

/-- Model of `char::to_ascii_lowercase`. -/
def toAsciiLowercaseChar (c : Char) : Char :=
  if 65 ≤ c.toNat ∧ c.toNat ≤ 90 then Char.ofNat (c.toNat + 32) else c

/-! ## Character classification (`src/parse/character.rs`) -/

/-- The character classes of `character::CharacterClass`. -/
inductive CharKind where
  | alphanumeric (c : Char)
  | punctuation
  | arabic
  | chinese
  | japanese
  | korean
  | unclassified
deriving DecidableEq

/-- Model of `impl From<char> for CharacterClass`, with the match arms in
source order. -/
def charKindOf (c : Char) : CharKind :=
  if isAsciiAlphanumeric c then .alphanumeric c
  else if isRustWhitespace c ∨ isRustControl c ∨ isAsciiPunct c ∨
      (c = '-' ∨ c = '_' ∨ c = '(' ∨ c = ')') then .punctuation
  else
    let n := c.toNat
    if (0x4E00 ≤ n ∧ n ≤ 0x9FFF) ∨ (0x3400 ≤ n ∧ n ≤ 0x4DBF) ∨
        (0x20000 ≤ n ∧ n ≤ 0x2A6DF) ∨ (0x2A700 ≤ n ∧ n ≤ 0x2B73F) ∨
        (0x2B740 ≤ n ∧ n ≤ 0x2B81F) ∨ (0x2B820 ≤ n ∧ n ≤ 0x2CEAF) ∨
        (0x2CEB0 ≤ n ∧ n ≤ 0x2EBEF) ∨ (0x30000 ≤ n ∧ n ≤ 0x3134F) ∨
        (0xF900 ≤ n ∧ n ≤ 0xFAFF) ∨ (0x2F800 ≤ n ∧ n ≤ 0x2FA1F) then .chinese
    else if (0xAC00 ≤ n ∧ n ≤ 0xD7AF) ∨ (0x1100 ≤ n ∧ n ≤ 0x11FF) ∨
        (0x3130 ≤ n ∧ n ≤ 0x318F) ∨ (0xA960 ≤ n ∧ n ≤ 0xA97F) ∨
        (0xD7B0 ≤ n ∧ n ≤ 0xD7FF) then .korean
    else if (0x3040 ≤ n ∧ n ≤ 0x309F) ∨ (0x30A0 ≤ n ∧ n ≤ 0x30FF) ∨
        (0x31F0 ≤ n ∧ n ≤ 0x31FF) ∨ (0xFF00 ≤ n ∧ n ≤ 0xFFEF) then .japanese
    else if (0x600 ≤ n ∧ n ≤ 0x6FF) ∨ (0x750 ≤ n ∧ n ≤ 0x77F) ∨
        (0x8A0 ≤ n ∧ n ≤ 0x8FF) ∨ (0xFB50 ≤ n ∧ n ≤ 0xFDFF) ∨
        (0xFE70 ≤ n ∧ n ≤ 0xFEFF) ∨ (0x1EE00 ≤ n ∧ n ≤ 0x1EEFF) then .arabic
    else .unclassified

/-- Model of `CharacterClass::to_substitution_symbol`. -/
def CharKind.toSubstitutionSymbol : CharKind → Option Char
  | .alphanumeric c => some c
  | .punctuation => none
  | .chinese => some '1'
  | .japanese => some '2'
  | .korean => some '3'
  | .arabic => some '4'
  | _ => none

/-! ## String normalization (`src/parse/string.rs`) -/

/-- Canonical decomposition of a single scalar.  Models the NFD step of
`unicode_normalization::UnicodeNormalization::nfd` restricted to
characters with a trivial canonical decomposition, which covers every
character occurring in this development (ASCII, `®`, `£`, `€`, `$`, `ø`,
`!`, `@`, U+FFFD, and the CJK ranges have no canonical decomposition). -/
def nfdDecompose (c : Char) : List Char := [c]

/-- Model of `string::convert_extended_to_ascii`: NFD-decompose and drop
combining diacritical marks in `U+0300..=U+036F`. -/
def convertExtendedToAscii (cs : List Char) : List Char :=
  ((cs.map nfdDecompose).flatten).filter
    (fun c => ¬(0x300 ≤ c.toNat ∧ c.toNat ≤ 0x36F))

/-- Model of the leet-speak table of `index_of::get_mapping` (identical to
`character::get_fuzzy_mapping`): `HashMap::get(&c).unwrap_or(&c)`. -/
def fuzzyCharMap (c : Char) : Char :=
  if c = '4' then 'a'
  else if c = '8' then 'b'
  else if c = '3' then 'e'
  else if c = '6' then 'g'
  else if c = '9' then 'g'
  else if c = '1' then 'i'
  else if c = 'l' then 'i'
  else if c = '0' then 'o'
  else if c = '5' then 's'
  else if c = '7' then 't'
  else if c = '2' then 'z'
  else if c = '®' then 'r'
  else if c = '£' then 'e'
  else if c = '€' then 'e'
  else if c = '$' then 's'
  else if c = '@' then 'a'
  else if c = '!' then 'i'
  else if c = 'ø' then 'o'
  else c

/-- Model of `string::convert_to_fuzzy_string` on a character sequence:
`map_characters_to_fuzzy(convert_extended_to_ascii(input))`. -/
def convertToFuzzyChars (cs : List Char) : List Char :=
  (convertExtendedToAscii cs).map (fun c => fuzzyCharMap (toAsciiLowercaseChar c))

/-- The normalized item computed by `impl From<&[u8]> for IndexOf`:
lossy-decode, NFD + strip marks, ASCII-lowercase, leet-map, then keep the
class substitution symbols. -/
def itemOfBytes (bs : List Nat) : List Char :=
  ((((convertExtendedToAscii (utf8DecodeLossy bs)).map toAsciiLowercaseChar).map
      fuzzyCharMap).filterMap (fun c => (charKindOf c).toSubstitutionSymbol))

example : itemOfBytes [80, 52, 53, 115, 119, 48, 194, 174, 68] = "password".data := by decide

/-! ## Aho–Corasick (model of `aho_corasick::AhoCorasick` as used here)

The automata in the sources are built with `AhoCorasick::new`, i.e. the
default `MatchKind::Standard`, and consumed with `find_iter` /
`try_stream_find_iter`: non-overlapping matches, each being the earliest-
ending match starting at or after the end of the previous one.  Every
pattern set used by the program has all its patterns of one common length
`L` (the word list is truncated to length `L`; a search uses the single
transformed query), so the earliest-ending match is the occurrence with
the least start position. -/

/-- Does some pattern of common length `L` occur in `hay` at index `i`? -/
def matchesAt [DecidableEq α] (pats : List (List α)) (L : Nat) (hay : List α)
    (i : Nat) : Bool :=
  i + L ≤ hay.length ∧ (hay.drop i).take L ∈ pats

/-- Least `i` in `[start, hay.length - L]` at which a pattern occurs
(fuel-driven scan; `fuel = hay.length + 1` always suffices). -/
def findOccFrom [DecidableEq α] (pats : List (List α)) (L : Nat) (hay : List α) :
    Nat → Nat → Option Nat
  | 0, _ => none
  | f + 1, i =>
    if i + L > hay.length then none
    else if matchesAt pats L hay i then some i
    else findOccFrom pats L hay f (i + 1)

/-- The non-overlapping match ranges of `find_iter`, scanning from `p`. -/
def acFindAux [DecidableEq α] (pats : List (List α)) (L : Nat) (hay : List α) :
    Nat → Nat → List (Nat × Nat)
  | 0, _ => []
  | f + 1, p =>
    match findOccFrom pats L hay (hay.length + 1) p with
    | none => []
    | some i => (i, i + L) :: acFindAux pats L hay f (i + L)

/-- Model of `AhoCorasick::find_iter` (Standard semantics) for a pattern
set of common length `L`: the list of reported `(start, end)` ranges. -/
def acFind [DecidableEq α] (pats : List (List α)) (L : Nat) (hay : List α) :
    List (Nat × Nat) :=
  acFindAux pats L hay (hay.length + 1) 0

example : acFind [['p','a','s'], ['w','o','r']] 3 "password".data = [(0, 3), (4, 7)] := by
  decide

/-! ## Key derivation (`src/parse/models/index_of.rs`)

`IndexOf` is embedded as a state machine over `IndexOfState`; the mutable
`HashSet<String>` is modelled as a membership list, the `VecDeque` of
automaton matches as a list. -/

/-- The mutable state of an `IndexOf<LENGTH, DEPTH>` value. -/
structure IndexOfState where
  item : List Char
  index : Nat
  queue : List (Nat × Nat)
  seen : List (List Char)
deriving DecidableEq

/-- Model of `str::get(s..e)` on an all-ASCII string: `none` exactly when
the range is out of bounds (char-boundary failures cannot occur since the
normalized item is pure ASCII). -/
def sliceGet (item : List Char) (s e : Nat) : Option (List Char) :=
  if s ≤ e ∧ e ≤ item.length then some ((item.drop s).take (e - s)) else none

/-- Model of `IndexOf::next_by_common_words` acting on the match queue and
the seen-set; returns the remaining queue, the new seen-set, and the
emitted key if any. -/
def nextByCommonWordsAux (item : List Char) (seen : List (List Char)) :
    List (Nat × Nat) → List (Nat × Nat) × List (List Char) × Option (List Char)
  | [] => ([], seen, none)
  | m :: rest =>
    match sliceGet item m.1 m.2 with
    | none => (rest, seen, none)
    | some w =>
      if w ∈ seen then nextByCommonWordsAux item seen rest
      else (rest, w :: seen, some w)

/-- Model of `IndexOf::next_by_common_words`. -/
def nextByCommonWords (st : IndexOfState) : IndexOfState × Option (List Char) :=
  let r := nextByCommonWordsAux st.item st.seen st.queue
  ({ st with queue := r.1, seen := r.2.1 }, r.2.2)

/-- The outcome of one pass through the body of `next_by_position`:
either a fresh key is yielded, or the key was a duplicate (the cursor has
advanced and `next()` is re-entered), or the positional phase is over. -/
inductive PosStep where
  | yield (k : List Char) (st : IndexOfState)
  | dup (st : IndexOfState)
  | stop
deriving DecidableEq

/-- Model of the non-recursive part of `IndexOf::next_by_position` for
parameters `L` (LENGTH) and `D` (DEPTH), with the guards in source order.
The `none` arm of the slice models the `panic!` branch, which is
unreachable because the guards make the range valid. -/
def posStep (L D : Nat) (st : IndexOfState) : PosStep :=
  if st.item = [] then .stop
  else if st.index + L > st.item.length then .stop
  else if D ≤ st.index then .stop
  else
    let i := st.index
    let st1 : IndexOfState := { st with index := i + 1 }
    match sliceGet st.item i (min (i + L) st.item.length) with
    | none => .stop
    | some r =>
      if r ∈ st1.seen then .dup st1
      else .yield r { st1 with seen := r :: st1.seen }

/-- Model of `Iterator::next` for `IndexOf` (which is
`next_by_position().or_else(next_by_common_words())`, where a duplicate
positional key re-enters `next()` recursively).  Structural on fuel: each
re-entry advances the cursor, so fuel `D + 1` always suffices. -/
def nextFuel (L D : Nat) : Nat → IndexOfState → IndexOfState × Option (List Char)
  | 0, st => (st, none)
  | f + 1, st =>
    match posStep L D st with
    | .yield k st1 => (st1, some k)
    | .stop => nextByCommonWords st
    | .dup st1 =>
      match nextFuel L D f st1 with
      | (st2, some k) => (st2, some k)
      | (st2, none) => nextByCommonWords st2

/-- `Iterator::next` for `IndexOf<L, D>`. -/
def indexOfNext (L D : Nat) (st : IndexOfState) : IndexOfState × Option (List Char) :=
  nextFuel L D (D + 1) st

/-- Drain the iterator into the list of emitted keys.  Each emission
either advances the cursor (bounded by `D`) or consumes a queued match,
so fuel `D + |matches| + 1` always suffices. -/
def emitFuel (L D : Nat) : Nat → IndexOfState → List (List Char)
  | 0, _ => []
  | f + 1, st =>
    match indexOfNext L D st with
    | (_, none) => []
    | (st1, some k) => k :: emitFuel L D f st1

/-- Model of `impl From<&[u8]> for IndexOf<L, D>` with the common-word
automaton given by its pattern list `pats` (each of length `L`). -/
def indexOfInit (L : Nat) (pats : List (List Char)) (bs : List Nat) : IndexOfState :=
  let cleaned := itemOfBytes bs
  { item := cleaned, index := 0, queue := acFind pats L cleaned, seen := [] }

/-- Model of `indices_of::<L, D>(bs).collect()`: every key emitted by the
key-derivation pipeline, in order. -/
def indicesOf (L D : Nat) (pats : List (List Char)) (bs : List Nat) : List (List Char) :=
  let st := indexOfInit L pats bs
  emitFuel L D (D + st.queue.length + 1) st

/-- Modelled from the spec: the packaged English word list
(`data/words/en_common_words.csv`, a build-time artifact not present
under `src/`), restricted to the words the claims exercise.  Per the
spec the list contains common English words such as `pass` and `word`,
and, consistently with the repository's unit tests, no word whose first
three letters would preempt the matches `pas` and `wor` inside
`password`. -/
def enCommonWords : List (List Char) := ["pass".data, "word".data]

/-- Model of `init_automaton::<LENGTH>` from the build-time automaton
template: keep words of length ≥ `L`, truncated to their first `L`
bytes. -/
def initAutomatonPatterns (L : Nat) (words : List (List Char)) : List (List Char) :=
  words.filterMap (fun w => if w.length < L then none else some (w.take L))

example :
    indicesOf 3 1 (initAutomatonPatterns 3 enCommonWords)
      [80, 52, 53, 115, 119, 48, 194, 174, 68] = ["pas".data, "wor".data] := by
  decide

example :
    indicesOf 3 3 (initAutomatonPatterns 3 enCommonWords)
      [80, 52, 53, 115, 119, 48, 194, 174, 68] =
      ["pas".data, "ass".data, "ssw".data, "wor".data] := by
  decide

/-! ## IndexFile (`src/parse/models/index_file.rs`)

One shard: an in-memory buffer, the optional `deduplicate` seen-set, and
the on-disk file (`none` while the file has not been created).  `flush`
appends the whole buffer to the file in one write; the `writes` logs of
the runs below record each such written byte range. -/

/-- The in-memory state of one `IndexFile`. -/
structure IndexFileState where
  buffer : List Nat
  seen : List (List Nat)
deriving DecidableEq

/-- A freshly created `IndexFile` (`IndexFile::new`). -/
def emptyIndexFile : IndexFileState := { buffer := [], seen := [] }

/-- Model of `IndexFile::flush_buffer`: on a non-empty buffer the whole
buffer is appended to the file (created on first write) and the buffer is
replaced by a fresh empty one; an empty buffer writes nothing and does
not create the file.  Returns (written chunk, new buffer, new file). -/
def flushBuffer (buffer : List Nat) (file : Option (List Nat)) :
    List Nat × List Nat × Option (List Nat) :=
  if buffer = [] then ([], buffer, file)
  else (buffer, [], some (file.getD [] ++ buffer))

/-- Model of `IndexFile::add` for buffer bound `MAX` (the `MAX_SIZE`
const generic) with the `deduplicate` feature switched by `dedup`.
Returns the `bool` result, the new shard state, the new file contents,
and the byte ranges written to disk by the internal flush (if any). -/
def fileAdd (dedup : Bool) (MAX : Nat) (item : List Nat) (st : IndexFileState)
    (file : Option (List Nat)) :
    Bool × IndexFileState × Option (List Nat) × List (List Nat) :=
  if dedup ∧ item ∈ st.seen then (false, st, file, [])
  else
    let seen1 := if dedup then item :: st.seen else st.seen
    if st.buffer.length + item.length + 1 > MAX then
      let r := flushBuffer st.buffer file
      (true, { buffer := r.2.1 ++ item ++ [nlByte], seen := seen1 }, r.2.2,
        if st.buffer = [] then [] else [r.1])
    else
      (true, { buffer := st.buffer ++ item ++ [nlByte], seen := seen1 }, file, [])

/-- Model of `IndexFile::flush`: flush the current buffer, returning the
new state, the new file contents and the written ranges. -/
def fileFlush (st : IndexFileState) (file : Option (List Nat)) :
    IndexFileState × Option (List Nat) × List (List Nat) :=
  let r := flushBuffer st.buffer file
  ({ st with buffer := r.2.1 }, r.2.2, if st.buffer = [] then [] else [r.1])

/-- An operation on a single `IndexFile`. -/
inductive FileOp where
  | add (item : List Nat)
  | flush
deriving DecidableEq

/-- Run a sequence of `IndexFile` operations from a given state,
accumulating the byte ranges written to disk. -/
def runFileOps (dedup : Bool) (MAX : Nat) :
    List FileOp → IndexFileState × Option (List Nat) × List (List Nat) →
      IndexFileState × Option (List Nat) × List (List Nat)
  | [], acc => acc
  | op :: ops, (st, file, ws) =>
    match op with
    | .add item =>
      let r := fileAdd dedup MAX item st file
      runFileOps dedup MAX ops (r.2.1, r.2.2.1, ws ++ r.2.2.2)
    | .flush =>
      let r := fileFlush st file
      runFileOps dedup MAX ops (r.1, r.2.1, ws ++ r.2.2)

/-! ## IndexCollection (`src/parse/models/index_collection.rs`)

The collection state maps keys to file contents and shard states.  The
key-derivation function is passed as a parameter `keysOf`; the claims
instantiate it with `indicesOf`. -/

/-- The state of an `IndexCollection` together with the directory
contents: on-disk file per key (`none` if absent), in-memory shard state
per key, the set of keys present in the map, and the write log. -/
structure CollectionState where
  files : List Char → Option (List Nat)
  shards : List Char → IndexFileState
  keys : List (List Char)
  writes : List (List Nat)

/-- The empty collection over an empty directory (`IndexCollection::new`). -/
def emptyCollection : CollectionState :=
  { files := fun _ => none, shards := fun _ => emptyIndexFile, keys := [], writes := [] }

/-- Update one entry of a key-indexed map. -/
def updateMap {β : Type} (m : List Char → β) (k : List Char) (v : β) :
    List Char → β :=
  fun k2 => if k2 = k then v else m k2

/-- Model of `IndexCollection::assert_index_exists` followed by the
per-key `IndexFile::add` inside `IndexCollection::add`. -/
def collAddKey (dedup : Bool) (MAX : Nat) (item : List Nat) (cs : CollectionState)
    (k : List Char) : CollectionState :=
  let cs1 := if k ∈ cs.keys then cs else { cs with keys := cs.keys ++ [k] }
  let r := fileAdd dedup MAX item (cs1.shards k) (cs1.files k)
  { cs1 with
    files := updateMap cs1.files k r.2.2.1
    shards := updateMap cs1.shards k r.2.1
    writes := cs1.writes ++ r.2.2.2 }

/-- Model of `IndexCollection::add`: derive the keys of `item` and add
the item to each key's shard in order (the error-free execution; the
fallible version is `collTryAdd` below). -/
def collAdd (dedup : Bool) (MAX : Nat) (keysOf : List Nat → List (List Char))
    (item : List Nat) (cs : CollectionState) : CollectionState :=
  (keysOf item).foldl (collAddKey dedup MAX item) cs

/-- Add a sequence of items to the collection. -/
def collAddAll (dedup : Bool) (MAX : Nat) (keysOf : List Nat → List (List Char)) :
    List (List Nat) → CollectionState → CollectionState
  | [], cs => cs
  | item :: items, cs =>
    collAddAll dedup MAX keysOf items (collAdd dedup MAX keysOf item cs)

/-- Flush the shards of the listed keys (`post_process` over the map). -/
def collFlushKeys : List (List Char) → CollectionState → CollectionState
  | [], cs => cs
  | k :: ks, cs =>
    let r := fileFlush (cs.shards k) (cs.files k)
    collFlushKeys ks
      { cs with
        files := updateMap cs.files k r.2.1
        shards := updateMap cs.shards k r.1
        writes := cs.writes ++ r.2.2 }

/-- Model of `IndexCollection::post_process` (also run on drop): flush
every shard of the collection. -/
def collFlushAll (cs : CollectionState) : CollectionState := collFlushKeys cs.keys cs

/-- Model of `IndexCollection::add` with I/O errors: `fails k = true`
means the shard of key `k` fails with an I/O error when touched for the
current line (shard creation in `assert_index_exists`, or the file
open/write inside `IndexFile::add`).  `Iterator::try_for_each` semantics:
the keys are processed in order and the first error is returned.  The
`Bool` result records whether an error was propagated to the caller. -/
def collTryAdd (dedup : Bool) (MAX : Nat) (fails : List Char → Bool)
    (item : List Nat) (cs : CollectionState) :
    List (List Char) → CollectionState × Bool
  | [] => (cs, false)
  | k :: ks =>
    if fails k then (cs, true)
    else collTryAdd dedup MAX fails item (collAddKey dedup MAX item cs k) ks

/-! ## Chunked reader (`crates/reader/src/sync.rs`)

`FixedMemoryReader<R, ML>` over a pure byte stream.  The `BufReader` it
wraps is modelled by its stream position: a `read` into a slice of length
`n` yields the next `min n remaining` bytes, and `read_until` yields the
bytes through the next separator.  `none` marks a Rust slice-indexing
panic (or fuel exhaustion on a diverging loop, unreachable under the
hypotheses of the theorems below). -/

/-- The reader state: remaining stream, overflow buffer contents, and the
`overflow_pointer`. -/
structure ReaderState where
  stream : List Nat
  ov : List Nat
  op : Nat
deriving DecidableEq

/-- A fresh `FixedMemoryReader` over `input`: the overflow buffer is the
uninitialized `utils::new_buffer(ML)` (its `ML` junk bytes are modelled
as zeros; they are never read while `op = 0`). -/
def initReader (ML : Nat) (input : List Nat) : ReaderState :=
  { stream := input, ov := List.replicate ML 0, op := 0 }

/-- The `loop` of `FixedMemoryReader::take_until`: repeatedly `read_until`
the separator into the overflow, returning when the chunk would be full
or at EOF, otherwise copying the overflow into the buffer.  Returns
(bytes_read, chunk bytes, new state). -/
def takeUntilLoop (sep CS : Nat) :
    Nat → Nat → List Nat → List Nat → Option (Nat × List Nat × ReaderState)
  | 0, _, _, _ => none
  | f + 1, read, acc, s =>
    let pr := readUntilSplit sep s
    let opp := pr.1.length
    if CS ≤ read + opp ∨ opp = 0 then
      some (read, acc, { stream := pr.2, ov := pr.1, op := opp })
    else takeUntilLoop sep CS f (read + opp) (acc ++ pr.1) pr.2

/-- Model of `FixedMemoryReader::take_until` with a caller buffer of
exactly `CS = chunk_size` bytes (as allocated by the iterator and the
repository's tests).  The two `none` guards are the slice-indexing panics
`buffer[..op]` / `overflow[..op]` and `buffer[op..CS - ML]`. -/
def takeUntil (sep CS ML : Nat) (st : ReaderState) :
    Option (Nat × List Nat × ReaderState) :=
  if st.ov.length < st.op ∨ CS < st.op then none
  else
    let lim := CS - ML
    if lim < st.op then none
    else
      let acc0 := st.ov.take st.op
      let raw := st.stream.take (lim - st.op)
      let s1 := st.stream.drop (lim - st.op)
      takeUntilLoop sep CS (s1.length + 1) (st.op + raw.length) (acc0 ++ raw) s1

/-- Model of iterating `IterFixedMemoryReader`: collect the chunks (the
first `bytes_read` bytes of the buffer each call) until a read returns 0.
Fuel-driven; `input.length + 2` suffices since every non-final call
consumes at least one byte. -/
def chunksFuel (sep CS ML : Nat) : Nat → ReaderState → Option (List (List Nat))
  | 0, _ => none
  | f + 1, st =>
    match takeUntil sep CS ML st with
    | none => none
    | some (read, chunk, st1) =>
      if read = 0 then some []
      else
        match chunksFuel sep CS ML f st1 with
        | none => none
        | some rest => some (chunk :: rest)

/-- All chunks returned by iterating the reader over `input`. -/
def readerChunks (sep CS ML : Nat) (input : List Nat) : Option (List (List Nat)) :=
  chunksFuel sep CS ML (input.length + 2) (initReader ML input)

example :
    readerChunks 10 12 5
      [97, 97, 97, 97, 97, 10, 98, 98, 98, 98, 98, 10, 99, 99, 99, 99, 99, 10] =
      some [[97, 97, 97, 97, 97, 10, 98], [98, 98, 98, 98, 10, 99, 99, 99, 99, 99, 10]] := by
  decide

/-! ## SearchStyle (`src/parse/search/models/search_style.rs`) -/

/-- The three search styles. -/
inductive SearchStyle where
  | strict
  | caseInsensitive
  | fuzzy
deriving DecidableEq

/-- Model of `u8::to_ascii_lowercase` / byte-wise `to_ascii_lowercase`. -/
def lowerByte (b : Nat) : Nat := if 65 ≤ b ∧ b ≤ 90 then b + 32 else b

/-- The byte transform of the fuzzy manipulator:
`convert_to_fuzzy_string(&String::from_utf8_lossy(buffer)).as_bytes()`. -/
def fuzzyBytes (bs : List Nat) : List Nat :=
  utf8Encode (convertToFuzzyChars (utf8DecodeLossy bs))

/-- Model of `SearchStyle::transform_query` on one query given by its
UTF-8 bytes. -/
def transformQuery : SearchStyle → List Nat → List Nat
  | .strict, q => q
  | .caseInsensitive, q => q.map lowerByte
  | .fuzzy, q => fuzzyBytes q

/-- The manipulator function installed by `SearchStyle::transform_reader`
(`none` for `Strict`, which returns the reader unwrapped). -/
def styleManipulator : SearchStyle → Option (List Nat → List Nat)
  | .strict => none
  | .caseInsensitive => some (fun buf => buf.map lowerByte)
  | .fuzzy => some fuzzyBytes

/-- Model of one `ManipulatedReader::read` call into a caller buffer of
size `n`, over an inner reader whose remaining bytes are `inner`.  The
result is the reported byte count; `none` is the
`buf[..manipulated.len()].copy_from_slice` panic when the manipulated
bytes do not fit into the caller's buffer. -/
def manipulatedRead (manip : List Nat → List Nat) (inner : List Nat) (n : Nat) :
    Option Nat :=
  let bytesRead := min n inner.length
  let m := manip (inner.take bytesRead)
  if m.length ≤ n then some m.length else none

theorem manipulatedRead_eq (manip : List Nat → List Nat) (inner : List Nat) (n : Nat) :
    manipulatedRead manip inner n =
      if (manip (inner.take (min n inner.length))).length ≤ n then
        some (manip (inner.take (min n inner.length))).length
      else none := rfl

/-- One `read` call through `SearchStyle::transform_reader`. -/
def styleRead (style : SearchStyle) (inner : List Nat) (n : Nat) : Option Nat :=
  match styleManipulator style with
  | none => some (min n inner.length)
  | some f => manipulatedRead f inner n

/-- The whole transformed byte stream seen by the streaming search when it
consumes the reader wrapped by `SearchStyle::transform_reader`.  The
per-`read` chunking is immaterial here because the searcher concatenates
everything it reads and, on the byte-preserving inputs of the claims, the
manipulators act byte-wise. -/
def transformStream : SearchStyle → List Nat → List Nat
  | .strict, c => c
  | .caseInsensitive, c => c.map lowerByte
  | .fuzzy, c => fuzzyBytes c

/-! ## LinesScanner (`src/parse/search/models/lines_scanner.rs`) -/

/-- `config::MAX_LINE_LENGTH`. -/
def maxLineLength : Nat := 256

/-- One `BufRead::read_line` from byte position `pos` of the shard file
`c` (the bytes through the next newline inclusive, or through EOF). -/
def readLineFrom (c : List Nat) (pos : Nat) : List Nat :=
  takeThrough nlByte (c.drop pos)

/-- The `while pos < range_end` loop of `LinesScanner::line_of_range`;
the buffer is cleared before each read, so only the last line survives.
`none` is fuel exhaustion, which models the loop diverging on a read past
EOF (unreachable when `e ≤ c.length`). -/
def lineLoop (c : List Nat) (e : Nat) : Nat → Nat → List Nat → Option (List Nat)
  | 0, _, _ => none
  | f + 1, pos, buf =>
    if pos < e then
      let piece := readLineFrom c pos
      lineLoop c e f (pos + piece.length) piece
    else some buf

/-- Bytes trimmed by `str::trim_end` on the all-ASCII lines of the
claims (the ASCII subset of Unicode `White_Space`). -/
def isTrimByte (b : Nat) : Bool :=
  b = 9 ∨ b = 10 ∨ b = 11 ∨ b = 12 ∨ b = 13 ∨ b = 32

/-- Model of `str::trim_end` on ASCII bytes. -/
def trimEnd (l : List Nat) : List Nat := (l.reverse.dropWhile isTrimByte).reverse

/-- Model of `LinesScanner::line_of_range` for the match range `[s, e)`:
seek to `s - MAX_LINE_LENGTH` (saturating), read lines until the cursor
reaches `e`, trim the last line read, and fail on an empty result. -/
def lineOfRange (c : List Nat) (s e : Nat) : Option (List Nat) :=
  match lineLoop c e (e + 1) (s - maxLineLength) [] with
  | none => none
  | some buf =>
    let line := trimEnd buf
    if line = [] then none else some line

/-- Model of `IndexFile::find_lines_containing` followed by draining the
scanner and keeping the `Ok` lines (as `find_lines_containing` on the
collection does): the match ranges are found in the transformed stream,
the lines are reconstructed from the raw shard file. -/
def scanShard (style : SearchStyle) (q : List Nat) (content : List Nat) :
    List (List Nat) :=
  let tq := transformQuery style q
  (acFind [tq] tq.length (transformStream style content)).filterMap
    (fun r => lineOfRange content r.1 r.2)

/-! ## Search across the collection
(`src/parse/search/implementations/index_collection.rs`) -/

/-- `slice::chunks c` (fuel-driven; `c ≥ 1` in every use). -/
def chunkListAux : Nat → Nat → List α → List (List α)
  | 0, _, _ => []
  | _, _, [] => []
  | f + 1, c, l => l.take c :: chunkListAux f c (l.drop c)

/-- Model of `par_chunks c` as the ordered list of chunks. -/
def chunkList (c : Nat) (l : List α) : List (List α) :=
  chunkListAux (l.length + 1) c l

/-- The `chunks_count` computed by `find_lines_containing` and passed to
`par_chunks`: `max(1, min(#index_files, rayon::max_num_threads()))`. -/
def chunksCount (numShards cores : Nat) : Nat := max 1 (min numShards cores)

/-- Model of `IndexCollection::index_files_for`: derive the keys of the
query and keep the shards whose file exists in the directory `dir`
(missing shards are silently skipped). -/
def indexFilesFor (L D : Nat) (pats : List (List Char))
    (dir : List Char → Option (List Nat)) (q : List Nat) : List (List Nat) :=
  (indicesOf L D pats q).filterMap dir

/-- Model of `IndexCollection::find_lines_containing` (without the
feature-gated LRU cache): partition the candidate shards into chunks of
size `chunks_count`, fold each chunk's matches into a local result set,
and union the per-chunk sets.  Result sets are modelled as lists up to
membership. -/
def findLinesContaining (L D : Nat) (pats : List (List Char))
    (dir : List Char → Option (List Nat)) (cores : Nat) (q : List Nat)
    (style : SearchStyle) : List (List Nat) :=
  let shards := indexFilesFor L D pats dir q
  ((chunkList (chunksCount shards.length cores) shards).map
      (fun ch => (ch.map (scanShard style q)).flatten)).flatten

example : chunkList (chunksCount 5 2) [0, 1, 2, 3, 4] = [[0, 1], [2, 3], [4]] := by decide

example : styleRead .fuzzy [255] 1 = none := by decide

/-! ## ASCII facts about the byte-wise transforms -/

/-- The byte-level action of the fuzzy manipulator on one ASCII byte. -/
def fuzzyLowByte (b : Nat) : Nat :=
  (fuzzyCharMap (toAsciiLowercaseChar (Char.ofNat b))).toNat

theorem toNat_ofNat_ascii : ∀ b : Nat, b < 128 → (Char.ofNat b).toNat = b := by decide

theorem fuzzyLowByte_ascii : ∀ b : Nat, b < 128 → fuzzyLowByte b < 128 := by decide

theorem utf8EncodeChar_ascii (c : Char) (h : c.toNat < 128) :
    utf8EncodeChar c = [c.toNat] := by
  simp [utf8EncodeChar, h]

theorem utf8DecodeLossy_nil : utf8DecodeLossy [] = [] := rfl

theorem utf8DecodeLossy_cons_ascii {b : Nat} (h : b < 128) (rest : List Nat) :
    utf8DecodeLossy (b :: rest) = Char.ofNat b :: utf8DecodeLossy rest := by
  simp [utf8DecodeLossy, utf8DecodeLossyFuel, h]

theorem convertExtendedToAscii_nil : convertExtendedToAscii [] = [] := rfl

theorem convertExtendedToAscii_cons_ascii {c : Char} (h : c.toNat < 128)
    (cs : List Char) : convertExtendedToAscii (c :: cs) = c :: convertExtendedToAscii cs := by
  have hc : ¬(0x300 ≤ c.toNat ∧ c.toNat ≤ 0x36F) := by omega
  simp [convertExtendedToAscii, nfdDecompose, List.filter_cons, hc]

theorem convertToFuzzyChars_cons_ascii {c : Char} (h : c.toNat < 128) (cs : List Char) :
    convertToFuzzyChars (c :: cs) =
      fuzzyCharMap (toAsciiLowercaseChar c) :: convertToFuzzyChars cs := by
  simp [convertToFuzzyChars, convertExtendedToAscii_cons_ascii h]

/-- On an all-ASCII byte string the fuzzy manipulator acts byte-wise and
in particular preserves the byte count. -/
theorem fuzzyBytes_ascii :
    ∀ bs : List Nat, (∀ b ∈ bs, b < 128) → fuzzyBytes bs = bs.map fuzzyLowByte := by
  intro bs
  induction bs with
  | nil => intro _; rfl
  | cons b rest ih =>
    intro h
    have hb : b < 128 := h b (by simp)
    have hrest : ∀ x ∈ rest, x < 128 := fun x hx => h x (by simp [hx])
    have hchar : (Char.ofNat b).toNat < 128 := by rw [toNat_ofNat_ascii b hb]; exact hb
    have henc : utf8EncodeChar (fuzzyCharMap (toAsciiLowercaseChar (Char.ofNat b))) =
        [fuzzyLowByte b] :=
      utf8EncodeChar_ascii _ (fuzzyLowByte_ascii b hb)
    calc fuzzyBytes (b :: rest)
        = utf8Encode (convertToFuzzyChars (Char.ofNat b :: utf8DecodeLossy rest)) := by
          rw [fuzzyBytes, utf8DecodeLossy_cons_ascii hb]
      _ = utf8Encode (fuzzyCharMap (toAsciiLowercaseChar (Char.ofNat b)) ::
            convertToFuzzyChars (utf8DecodeLossy rest)) := by
          rw [convertToFuzzyChars_cons_ascii hchar]
      _ = fuzzyLowByte b :: fuzzyBytes rest := by
          rw [fuzzyBytes] at *
          simp [utf8Encode, henc]
      _ = (b :: rest).map fuzzyLowByte := by rw [ih hrest]; rfl

/-! ## Claim C2 -/

/-- C2: on the UTF-8 bytes of `P45sw0®D` with `L = 3` and `D = 1`, the
key-derivation pipeline normalizes the line to the item `password`, and
the `IndexOf` iterator yields exactly `["pas", "wor"]` in that order (the
positional key `pas` first, then the common-word key `wor`; the duplicate
common-word match `pas` is suppressed by the shared seen-set).  The
common-word automaton is the spec-modelled `enCommonWords` pattern set. -/
theorem c2_p45sword_keys :
    itemOfBytes [80, 52, 53, 115, 119, 48, 194, 174, 68] = "password".data ∧
    indicesOf 3 1 (initAutomatonPatterns 3 enCommonWords)
      [80, 52, 53, 115, 119, 48, 194, 174, 68] = ["pas".data, "wor".data] := by
  decide

/-! ## Claim C6 -/

/-- C6, counterexample: adding a 4096-byte item to an empty `IndexFile`
with `MAX_BUFFER = 4096` (the default `MAX_INDEX_BUFFER_SIZE`) leaves
4097 unflushed bytes in the buffer, so the claimed bound fails without a
precondition on the item's length. -/
theorem c6_counterexample :
    ¬((fileAdd false 4096 (List.replicate 4096 97) emptyIndexFile none).2.1.buffer.length
        ≤ 4096) := by
  have h : ((emptyIndexFile.buffer.length + (List.replicate 4096 97).length + 1 : Nat) > 4096) := by
    rw [List.length_replicate]
    decide
  have hskip : ¬((false : Bool) ∧ List.replicate 4096 97 ∈ emptyIndexFile.seen) :=
    fun hc => absurd hc.1 (by decide)
  rw [fileAdd, if_neg hskip, if_pos h]
  have : (flushBuffer emptyIndexFile.buffer none).2.1 = [] := rfl
  simp only [this, List.nil_append, List.length_append, List.length_replicate]
  decide

/-- C6, amended: after any `IndexFile::add` whose item satisfies
`item.len() + 1 ≤ MAX_BUFFER`, the in-memory buffer holds at most
`MAX_BUFFER` bytes, provided it did before the call (the bound cannot
hold unconditionally: see the counterexample). -/
theorem c6_buffer_bounded (dedup : Bool) (MAX : Nat) (item : List Nat)
    (st : IndexFileState) (file : Option (List Nat))
    (hbuf : st.buffer.length ≤ MAX) (hitem : item.length + 1 ≤ MAX) :
    (fileAdd dedup MAX item st file).2.1.buffer.length ≤ MAX := by
  by_cases h1 : dedup ∧ item ∈ st.seen
  · simp [fileAdd, h1, hbuf]
  · by_cases h2 : st.buffer.length + item.length + 1 > MAX
    · by_cases h3 : st.buffer = [] <;>
        simp [fileAdd, h1, h2, flushBuffer, h3] <;> omega
    · simp [fileAdd, h1, h2]
      omega

/-- Witness for `c6_buffer_bounded` at a concrete instance. -/
theorem c6_buffer_bounded_witness :
    (emptyIndexFile.buffer.length ≤ 4096 ∧ ([97] : List Nat).length + 1 ≤ 4096) ∧
    (fileAdd false 4096 [97] emptyIndexFile none).2.1.buffer.length ≤ 4096 :=
  ⟨⟨by decide, by decide⟩,
    c6_buffer_bounded false 4096 [97] emptyIndexFile none (by decide) (by decide)⟩

/-! ## Claim C9 -/

/-- C9: `find_lines_containing` computes
`chunks_count = max(1, min(#shards, #cores))` but passes it to
`par_chunks`, whose argument is the chunk *size*.  With 5 candidate
shards and 2 cores the shard list is split into 3 chunks, exceeding the
claimed bound `min(#shards, #cores) = 2`; the variable name
`chunks_count` and the spec agree that the intended number of chunks was
`min(#shards, #cores)`. -/
theorem c9_chunk_count_eval :
    chunkList (chunksCount 5 2) [0, 1, 2, 3, 4] = [[0, 1], [2, 3], [4]] ∧
    (chunkList (chunksCount 5 2) ([0, 1, 2, 3, 4] : List Nat)).length = 3 ∧
    ¬((chunkList (chunksCount 5 2) ([0, 1, 2, 3, 4] : List Nat)).length ≤ min 5 2) := by
  decide

/-! ## Claim C10 -/

/-- C10, counterexample: a `Fuzzy` `ManipulatedReader::read` into a
1-byte buffer over an inner reader holding the single invalid byte 0xFF
turns it into the 3-byte UTF-8 replacement character, and the copy
`buf[..manipulated.len()].copy_from_slice(..)` panics (`none`). -/
theorem c10_counterexample : styleRead .fuzzy [255] 1 = none := by decide

/-- C10, amended: a read through the style's transformed reader reports
at most `n` bytes and does not panic, for `Strict` and `CaseInsensitive`
always, and for `Fuzzy` whenever the inner bytes are ASCII (so that the
manipulated bytes fit the caller's buffer). -/
theorem c10_read_within_buffer (style : SearchStyle) (inner : List Nat) (n : Nat)
    (h : style = SearchStyle.fuzzy → ∀ b ∈ inner, b < 128) :
    ∃ k, styleRead style inner n = some k ∧ k ≤ n := by
  cases style with
  | strict => exact ⟨min n inner.length, rfl, Nat.min_le_left _ _⟩
  | caseInsensitive =>
    refine ⟨min n inner.length, ?_, Nat.min_le_left _ _⟩
    have hlen : ((inner.take (min n inner.length)).map lowerByte).length =
        min n inner.length := by
      rw [List.length_map, List.length_take, Nat.min_assoc, Nat.min_self]
    show manipulatedRead (fun buf => buf.map lowerByte) inner n = some (min n inner.length)
    rw [manipulatedRead_eq, hlen, if_pos (Nat.min_le_left n inner.length)]
  | fuzzy =>
    refine ⟨min n inner.length, ?_, Nat.min_le_left _ _⟩
    have hascii : ∀ b ∈ inner.take (min n inner.length), b < 128 :=
      fun b hb => h rfl b (List.mem_of_mem_take hb)
    have hlen : (fuzzyBytes (inner.take (min n inner.length))).length =
        min n inner.length := by
      rw [fuzzyBytes_ascii _ hascii, List.length_map, List.length_take, Nat.min_assoc,
        Nat.min_self]
    show manipulatedRead fuzzyBytes inner n = some (min n inner.length)
    rw [manipulatedRead_eq, hlen, if_pos (Nat.min_le_left n inner.length)]

/-- Witness for `c10_read_within_buffer` at a concrete instance. -/
theorem c10_read_within_buffer_witness :
    ((SearchStyle.fuzzy = SearchStyle.fuzzy → ∀ b ∈ [104, 105], b < 128) ∧
      ∃ k, styleRead .fuzzy [104, 105] 8 = some k ∧ k ≤ 8) :=
  ⟨by decide, c10_read_within_buffer .fuzzy [104, 105] 8 (by decide)⟩

/-! ## Claim C5 -/

/-- C5, counterexample: adding the line `P45sw0®D` derives the keys
`["pas", "wor"]`; when the shard for `pas` fails with an I/O error, the
error is propagated to the caller (`true`), but the shard for `wor` is
left untouched — its buffer is still empty — because
`Iterator::try_for_each` short-circuits on the first `Err`.  The claim
that the appends for the remaining keys are still performed is false. -/
theorem c5_counterexample :
    (collTryAdd false 4096 (fun k => k == "pas".data)
        [80, 52, 53, 115, 119, 48, 194, 174, 68] emptyCollection
        (indicesOf 3 1 (initAutomatonPatterns 3 enCommonWords)
          [80, 52, 53, 115, 119, 48, 194, 174, 68])).2 = true ∧
    ((collTryAdd false 4096 (fun k => k == "pas".data)
        [80, 52, 53, 115, 119, 48, 194, 174, 68] emptyCollection
        (indicesOf 3 1 (initAutomatonPatterns 3 enCommonWords)
          [80, 52, 53, 115, 119, 48, 194, 174, 68])).1.shards "wor".data).buffer = [] := by
  decide

/-- C5, amended: when the append for one key of the current line fails
with an I/O error, the error is propagated to the caller and the appends
for the remaining keys of the same line are NOT performed:
`try_for_each` stops at the first failing shard, leaving the state as it
was after the keys preceding it. -/
theorem c5_error_aborts_siblings (dedup : Bool) (MAX : Nat) (fails : List Char → Bool)
    (item : List Nat) (cs : CollectionState) (pre post : List (List Char))
    (bad : List Char) (hpre : ∀ k ∈ pre, fails k = false) (hbad : fails bad = true) :
    collTryAdd dedup MAX fails item cs (pre ++ bad :: post) =
      (pre.foldl (collAddKey dedup MAX item) cs, true) := by
  induction pre generalizing cs with
  | nil => simp [collTryAdd, hbad]
  | cons k ks ih =>
    have hk : fails k = false := hpre k (by simp)
    simp only [List.cons_append, collTryAdd, hk, Bool.false_eq_true, if_false,
      List.foldl_cons]
    exact ih (collAddKey dedup MAX item cs k) (fun x hx => hpre x (by simp [hx]))

/-- Witness for `c5_error_aborts_siblings` at a concrete instance. -/
theorem c5_error_aborts_siblings_witness :
    ((∀ k ∈ [("pas".data)], (fun k2 => k2 == "wor".data) k = false) ∧
      (fun k2 => k2 == "wor".data) "wor".data = true) ∧
    collTryAdd false 4096 (fun k2 => k2 == "wor".data) [97] emptyCollection
        (["pas".data] ++ "wor".data :: []) =
      ([("pas".data)].foldl (collAddKey false 4096 [97]) emptyCollection, true) :=
  ⟨⟨by decide, by decide⟩,
    c5_error_aborts_siblings false 4096 (fun k2 => k2 == "wor".data) [97]
      emptyCollection ["pas".data] [] "wor".data (by decide) (by decide)⟩

/-! ## Newline-flat buffers: lemmas for C4 and C1 -/

theorem isLineFlat_nil : IsLineFlat [] := ⟨[], by simp, rfl⟩

theorem IsLineFlat.append_line {b item : List Nat} (hb : IsLineFlat b)
    (hitem : nlByte ∉ item) : IsLineFlat (b ++ item ++ [nlByte]) := by
  obtain ⟨ls, hls, rfl⟩ := hb
  refine ⟨ls ++ [item], ?_, ?_⟩
  · intro l hl
    rcases List.mem_append.1 hl with h | h
    · exact hls l h
    · rw [List.mem_singleton] at h
      subst h
      exact hitem
  · simp

theorem IsLineFlat.getLast {b : List Nat} (hb : IsLineFlat b) (hne : b ≠ []) :
    b.getLast? = some nlByte := by
  obtain ⟨ls, hls, rfl⟩ := hb
  induction ls with
  | nil => simp at hne
  | cons l rest ih =>
    by_cases hr : ((rest.map (fun l => l ++ [nlByte])).flatten) = []
    · simp only [List.map_cons, List.flatten_cons, hr, List.append_nil]
      exact List.getLast?_concat _
    · have := ih (fun x hx => hls x (by simp [hx])) hr
      simp only [List.map_cons, List.flatten_cons]
      rw [List.getLast?_append_of_ne_nil _ hr]
      exact this

/-- `str::lines` recovers the line list of a newline-flat byte string. -/
theorem linesOfAux_line (l rest : List Nat) (hl : nlByte ∉ l) :
    ∀ cur, linesOfAux cur (l ++ nlByte :: rest) = (cur.reverse ++ l) :: linesOfAux [] rest := by
  induction l with
  | nil => intro cur; simp [linesOfAux]
  | cons b bs ih =>
    intro cur
    have hb : ¬(b = nlByte) := fun h => hl (by simp [h])
    have hbs : nlByte ∉ bs := fun h => hl (by simp [h])
    have step : linesOfAux cur ((b :: bs) ++ nlByte :: rest) =
        linesOfAux (b :: cur) (bs ++ nlByte :: rest) := by
      simp only [List.cons_append, linesOfAux, hb, if_false]
      rfl
    rw [step, ih hbs (b :: cur), List.reverse_cons]
    simp [List.append_assoc]

theorem linesOf_flat (ls : List (List Nat)) (h : ∀ l ∈ ls, nlByte ∉ l) :
    linesOf ((ls.map (fun l => l ++ [nlByte])).flatten) = ls := by
  induction ls with
  | nil => rfl
  | cons l rest ih =>
    have hshape : ((l :: rest).map (fun l => l ++ [nlByte])).flatten =
        l ++ nlByte :: (rest.map (fun l => l ++ [nlByte])).flatten := by simp
    rw [linesOf, hshape, linesOfAux_line l _ (h l (by simp))]
    simp only [List.reverse_nil, List.nil_append]
    rw [← linesOf, ih (fun x hx => h x (by simp [hx]))]

theorem linesOf_append_line {b item : List Nat} (hb : IsLineFlat b)
    (hitem : nlByte ∉ item) : linesOf (b ++ item ++ [nlByte]) = linesOf b ++ [item] := by
  obtain ⟨ls, hls, rfl⟩ := hb
  have h2 : ∀ l ∈ ls ++ [item], nlByte ∉ l := by
    intro l hl
    rcases List.mem_append.1 hl with h | h
    · exact hls l h
    · rw [List.mem_singleton] at h; subst h; exact hitem
  have hshape : ((ls.map (fun l => l ++ [nlByte])).flatten ++ item ++ [nlByte]) =
      (((ls ++ [item]).map (fun l => l ++ [nlByte])).flatten) := by simp
  rw [hshape, linesOf_flat _ h2, linesOf_flat _ hls]

/-! ## Claim C4 -/

/-- Decidable hypothesis: every item added by the operation sequence is
newline-free. -/
def opsNlFree : List FileOp → Bool
  | [] => true
  | FileOp.add item :: ops => !(item.contains nlByte) && opsNlFree ops
  | FileOp.flush :: ops => opsNlFree ops

/-- The C4 invariant of a file-and-write-log configuration. -/
def FileInv (st : IndexFileState) (file : Option (List Nat)) (ws : List (List Nat)) :
    Prop :=
  IsLineFlat st.buffer ∧ (∀ c, file = some c → IsLineFlat c) ∧
    ∀ w ∈ ws, w ≠ [] ∧ w.getLast? = some nlByte ∧ IsLineFlat w

theorem flushBuffer_nil (file : Option (List Nat)) :
    flushBuffer [] file = ([], [], file) := by simp [flushBuffer]

theorem flushBuffer_ne {buffer : List Nat} (h : buffer ≠ []) (file : Option (List Nat)) :
    flushBuffer buffer file = (buffer, [], some (file.getD [] ++ buffer)) := by
  simp [flushBuffer, h]

theorem flushBuffer_inv {st : IndexFileState} {file : Option (List Nat)}
    {ws : List (List Nat)} (h : FileInv st file ws) :
    IsLineFlat (flushBuffer st.buffer file).2.1 ∧
      (∀ c, (flushBuffer st.buffer file).2.2 = some c → IsLineFlat c) ∧
      ∀ w ∈ ws ++ (if st.buffer = [] then [] else [(flushBuffer st.buffer file).1]),
        w ≠ [] ∧ w.getLast? = some nlByte ∧ IsLineFlat w := by
  obtain ⟨hbuf, hfile, hws⟩ := h
  by_cases hempty : st.buffer = []
  · refine ⟨?_, ?_, ?_⟩
    · rw [hempty, flushBuffer_nil]; exact isLineFlat_nil
    · rw [hempty, flushBuffer_nil]; exact hfile
    · rw [if_pos hempty, List.append_nil]; exact hws
  · refine ⟨?_, ?_, ?_⟩
    · rw [flushBuffer_ne hempty]; exact isLineFlat_nil
    · rw [flushBuffer_ne hempty]
      intro c hc
      rw [Option.some.injEq] at hc
      subst hc
      obtain ⟨ls1, hls1, hshape1⟩ : IsLineFlat (file.getD []) := by
        cases file with
        | none => exact isLineFlat_nil
        | some c0 => exact hfile c0 rfl
      obtain ⟨ls2, hls2, hshape2⟩ := hbuf
      refine ⟨ls1 ++ ls2, ?_, ?_⟩
      · intro l hl
        rcases List.mem_append.1 hl with h | h
        · exact hls1 l h
        · exact hls2 l h
      · rw [hshape1, hshape2]; simp
    · rw [if_neg hempty]
      intro w hw
      rcases List.mem_append.1 hw with h | h
      · exact hws w h
      · rw [List.mem_singleton] at h
        subst h
        rw [flushBuffer_ne hempty]
        exact ⟨hempty, hbuf.getLast hempty, hbuf⟩

theorem fileAdd_inv (dedup : Bool) (MAX : Nat) {item : List Nat}
    {st : IndexFileState} {file : Option (List Nat)} {ws : List (List Nat)}
    (hitem : nlByte ∉ item) (h : FileInv st file ws) :
    FileInv (fileAdd dedup MAX item st file).2.1 (fileAdd dedup MAX item st file).2.2.1
      (ws ++ (fileAdd dedup MAX item st file).2.2.2) := by
  obtain ⟨hbuf, hfile, hws⟩ := h
  by_cases h1 : dedup ∧ item ∈ st.seen
  · simp only [fileAdd, if_pos h1]
    exact ⟨hbuf, hfile, by simpa using hws⟩
  · by_cases h2 : st.buffer.length + item.length + 1 > MAX
    · have hf := flushBuffer_inv ⟨hbuf, hfile, hws⟩
      simp only [fileAdd, if_neg h1, if_pos h2]
      exact ⟨hf.1.append_line hitem, hf.2.1, hf.2.2⟩
    · simp only [fileAdd, if_neg h1, if_neg h2]
      exact ⟨hbuf.append_line hitem, hfile, by simpa using hws⟩

theorem fileFlush_inv {st : IndexFileState} {file : Option (List Nat)}
    {ws : List (List Nat)} (h : FileInv st file ws) :
    FileInv (fileFlush st file).1 (fileFlush st file).2.1
      (ws ++ (fileFlush st file).2.2) := by
  have hf := flushBuffer_inv h
  exact ⟨hf.1, hf.2.1, hf.2.2⟩

theorem runFileOps_inv (dedup : Bool) (MAX : Nat) (ops : List FileOp) :
    ∀ st file ws, opsNlFree ops = true → FileInv st file ws →
      FileInv (runFileOps dedup MAX ops (st, file, ws)).1
        (runFileOps dedup MAX ops (st, file, ws)).2.1
        (runFileOps dedup MAX ops (st, file, ws)).2.2 := by
  induction ops with
  | nil => intro st file ws _ h; exact h
  | cons op ops ih =>
    intro st file ws hnl h
    cases op with
    | add item =>
      have hnl2 : (!(item.contains nlByte) && opsNlFree ops) = true := hnl
      rw [Bool.and_eq_true] at hnl2
      have hi : nlByte ∉ item := by
        have h2 := hnl2.1
        simp only [Bool.not_eq_true'] at h2
        simpa using h2
      exact ih _ _ _ hnl2.2 (fileAdd_inv dedup MAX hi h)
    | flush =>
      exact ih _ _ _ hnl (fileFlush_inv h)

/-- C4: for every sequence of `IndexFile::add` / `IndexFile::flush` calls
whose items contain no `\n` byte, the in-memory buffer is at all times
between operations either empty or a concatenation of `\n`-terminated
lines, every byte range written to disk by a flush is non-empty, ends
with `\n` and is itself a whole number of lines, and the on-disk shard
file is always a valid newline-delimited file. -/
theorem c4_buffer_and_flush_whole_lines (dedup : Bool) (MAX : Nat) (ops : List FileOp)
    (hops : opsNlFree ops = true) :
    IsLineFlat (runFileOps dedup MAX ops (emptyIndexFile, none, [])).1.buffer ∧
      (∀ c, (runFileOps dedup MAX ops (emptyIndexFile, none, [])).2.1 = some c →
        IsLineFlat c) ∧
      ∀ w ∈ (runFileOps dedup MAX ops (emptyIndexFile, none, [])).2.2,
        w ≠ [] ∧ w.getLast? = some nlByte ∧ IsLineFlat w :=
  runFileOps_inv dedup MAX ops emptyIndexFile none [] hops
    (by
      refine ⟨isLineFlat_nil, ?_, ?_⟩
      · intro c hc; cases hc
      · intro w hw; cases hw)

/-! ## Claim C1 -/

/-- The bytes of shard `k` as they will stand on disk once flushed: the
current file contents followed by the in-memory buffer. -/
def pending (cs : CollectionState) (k : List Char) : List Nat :=
  (cs.files k).getD [] ++ (cs.shards k).buffer

/-- The collection invariant for C1: every shard's pending bytes are a
whole number of lines, and every newline-free item recorded in a shard's
seen-set already stands as a line of that shard's pending bytes. -/
def CollInv (cs : CollectionState) : Prop :=
  ∀ k, IsLineFlat (pending cs k) ∧
    ∀ s ∈ (cs.shards k).seen, nlByte ∉ s → s ∈ linesOf (pending cs k)

theorem collInv_empty : CollInv emptyCollection :=
  fun _ => ⟨isLineFlat_nil, fun _ hs _ => nomatch hs⟩

/-- Decidable hypothesis: every item of the batch is newline-free. -/
def allNlFree (items : List (List Nat)) : Bool :=
  items.all (fun i => !(i.contains nlByte))

theorem collAddKey_eq (dedup : Bool) (MAX : Nat) (item : List Nat)
    (cs : CollectionState) (k : List Char) :
    collAddKey dedup MAX item cs k =
      { files := updateMap cs.files k
          (fileAdd dedup MAX item (cs.shards k) (cs.files k)).2.2.1
        shards := updateMap cs.shards k
          (fileAdd dedup MAX item (cs.shards k) (cs.files k)).2.1
        keys := if k ∈ cs.keys then cs.keys else cs.keys ++ [k]
        writes := cs.writes ++ (fileAdd dedup MAX item (cs.shards k) (cs.files k)).2.2.2 } := by
  by_cases hk : k ∈ cs.keys <;> simp [collAddKey, hk]

/-- The pending bytes of shard `k` after `IndexFile::add`: unchanged on a
dedup skip, otherwise extended by the new line (an internal flush only
moves bytes from the buffer to the file). -/
theorem fileAdd_pending (dedup : Bool) (MAX : Nat) (item : List Nat)
    (st : IndexFileState) (file : Option (List Nat)) :
    (fileAdd dedup MAX item st file).2.2.1.getD [] ++
        (fileAdd dedup MAX item st file).2.1.buffer =
      if dedup ∧ item ∈ st.seen then file.getD [] ++ st.buffer
      else file.getD [] ++ st.buffer ++ item ++ [nlByte] := by
  by_cases h1 : dedup ∧ item ∈ st.seen
  · simp [fileAdd, h1]
  · by_cases h2 : st.buffer.length + item.length + 1 > MAX
    · by_cases h3 : st.buffer = []
      · simp [fileAdd, h1, h2, flushBuffer_nil, h3, List.append_assoc]
      · simp [fileAdd, h1, h2, flushBuffer_ne h3, List.append_assoc]
    · simp [fileAdd, h1, h2, List.append_assoc]

theorem updateMap_self {β : Type} (m : List Char → β) (k : List Char) (v : β) :
    updateMap m k v k = v := by simp [updateMap]

theorem updateMap_other {β : Type} (m : List Char → β) {k k2 : List Char} (v : β)
    (h : k2 ≠ k) : updateMap m k v k2 = m k2 := by simp [updateMap, h]

theorem fileAdd_seen (dedup : Bool) (MAX : Nat) (item : List Nat)
    (st : IndexFileState) (file : Option (List Nat)) :
    (fileAdd dedup MAX item st file).2.1.seen =
      if dedup ∧ item ∈ st.seen then st.seen
      else if dedup then item :: st.seen else st.seen := by
  by_cases h1 : dedup ∧ item ∈ st.seen
  · simp [fileAdd, h1]
  · by_cases h2 : st.buffer.length + item.length + 1 > MAX <;> simp [fileAdd, h1, h2]

theorem fileAdd_seen_sub (dedup : Bool) (MAX : Nat) (item : List Nat)
    (st : IndexFileState) (file : Option (List Nat)) :
    ∀ s ∈ (fileAdd dedup MAX item st file).2.1.seen, s = item ∨ s ∈ st.seen := by
  intro s hs
  rw [fileAdd_seen] at hs
  by_cases h1 : dedup ∧ item ∈ st.seen
  · rw [if_pos h1] at hs
    exact Or.inr hs
  · rw [if_neg h1] at hs
    cases dedup with
    | false => exact Or.inr (by simpa using hs)
    | true =>
      rcases List.mem_cons.1 (by simpa using hs) with h | h
      · exact Or.inl h
      · exact Or.inr h

theorem collAddKey_inv {dedup : Bool} {MAX : Nat} {item : List Nat}
    {cs : CollectionState} (k : List Char) (hitem : nlByte ∉ item)
    (hinv : CollInv cs) :
    CollInv (collAddKey dedup MAX item cs k) ∧
      item ∈ linesOf (pending (collAddKey dedup MAX item cs k) k) ∧
      (∀ k2 s0, s0 ∈ linesOf (pending cs k2) →
        s0 ∈ linesOf (pending (collAddKey dedup MAX item cs k) k2)) ∧
      (∀ k2, k2 ∈ cs.keys → k2 ∈ (collAddKey dedup MAX item cs k).keys) ∧
      k ∈ (collAddKey dedup MAX item cs k).keys := by
  have hfiles : (collAddKey dedup MAX item cs k).files =
      updateMap cs.files k (fileAdd dedup MAX item (cs.shards k) (cs.files k)).2.2.1 := by
    rw [collAddKey_eq]
  have hshards : (collAddKey dedup MAX item cs k).shards =
      updateMap cs.shards k (fileAdd dedup MAX item (cs.shards k) (cs.files k)).2.1 := by
    rw [collAddKey_eq]
  have hpend : ∀ k2, pending (collAddKey dedup MAX item cs k) k2 =
      if k2 = k then
        (if dedup ∧ item ∈ (cs.shards k).seen then pending cs k
         else pending cs k ++ item ++ [nlByte])
      else pending cs k2 := by
    intro k2
    simp only [pending, hfiles, hshards]
    by_cases hk2 : k2 = k
    · subst hk2
      rw [updateMap_self, updateMap_self, fileAdd_pending, if_pos rfl]
    · rw [updateMap_other _ _ hk2, updateMap_other _ _ hk2, if_neg hk2]
  have hseen : ∀ k2, (collAddKey dedup MAX item cs k).shards k2 =
      if k2 = k then (fileAdd dedup MAX item (cs.shards k) (cs.files k)).2.1
      else cs.shards k2 := by
    intro k2
    rw [hshards]
    by_cases hk2 : k2 = k
    · subst hk2
      rw [updateMap_self, if_pos rfl]
    · rw [updateMap_other _ _ hk2, if_neg hk2]
  have hkeys : (collAddKey dedup MAX item cs k).keys =
      if k ∈ cs.keys then cs.keys else cs.keys ++ [k] := by
    rw [collAddKey_eq]
  have hmono : ∀ k2 s0, s0 ∈ linesOf (pending cs k2) →
      s0 ∈ linesOf (pending (collAddKey dedup MAX item cs k) k2) := by
    intro k2 s0 h0
    rw [hpend k2]
    by_cases hk2 : k2 = k
    · subst hk2
      rw [if_pos rfl]
      by_cases hd : dedup ∧ item ∈ (cs.shards k2).seen
      · rw [if_pos hd]; exact h0
      · rw [if_neg hd, linesOf_append_line (hinv k2).1 hitem]
        exact List.mem_append_left _ h0
    · rw [if_neg hk2]; exact h0
  have hitemIn : item ∈ linesOf (pending (collAddKey dedup MAX item cs k) k) := by
    rw [hpend k, if_pos rfl]
    by_cases hd : dedup ∧ item ∈ (cs.shards k).seen
    · rw [if_pos hd]
      exact (hinv k).2 item hd.2 hitem
    · rw [if_neg hd, linesOf_append_line (hinv k).1 hitem]
      simp
  refine ⟨?_, hitemIn, hmono, ?_, ?_⟩
  · intro k2
    constructor
    · rw [hpend k2]
      by_cases hk2 : k2 = k
      · subst hk2
        rw [if_pos rfl]
        by_cases hd : dedup ∧ item ∈ (cs.shards k2).seen
        · rw [if_pos hd]; exact (hinv k2).1
        · rw [if_neg hd]; exact (hinv k2).1.append_line hitem
      · rw [if_neg hk2]; exact (hinv k2).1
    · intro s hs hsnl
      rw [hseen k2] at hs
      by_cases hk2 : k2 = k
      · subst hk2
        rw [if_pos rfl] at hs
        rcases fileAdd_seen_sub dedup MAX item (cs.shards k2) (cs.files k2) s hs with
          rfl | hold
        · exact hitemIn
        · exact hmono k2 s ((hinv k2).2 s hold hsnl)
      · rw [if_neg hk2] at hs
        exact hmono k2 s ((hinv k2).2 s hs hsnl)
  · intro k2 hk2
    rw [hkeys]
    by_cases hk : k ∈ cs.keys
    · rw [if_pos hk]; exact hk2
    · rw [if_neg hk]; exact List.mem_append_left _ hk2
  · rw [hkeys]
    by_cases hk : k ∈ cs.keys
    · rw [if_pos hk]; exact hk
    · rw [if_neg hk]; simp

/-- Folding `collAddKey` over the derived keys of one line. -/
theorem collAdd_keys_inv {dedup : Bool} {MAX : Nat} {item : List Nat}
    (hitem : nlByte ∉ item) :
    ∀ (ks : List (List Char)) (cs : CollectionState), CollInv cs →
      CollInv (ks.foldl (collAddKey dedup MAX item) cs) ∧
        (∀ k2 s0, s0 ∈ linesOf (pending cs k2) →
          s0 ∈ linesOf (pending (ks.foldl (collAddKey dedup MAX item) cs) k2)) ∧
        (∀ k2, k2 ∈ cs.keys → k2 ∈ (ks.foldl (collAddKey dedup MAX item) cs).keys) ∧
        ∀ k ∈ ks, k ∈ (ks.foldl (collAddKey dedup MAX item) cs).keys ∧
          item ∈ linesOf (pending (ks.foldl (collAddKey dedup MAX item) cs) k) := by
  intro ks
  induction ks with
  | nil =>
    intro cs hinv
    exact ⟨hinv, fun _ _ h => h, fun _ h => h, fun k hk => nomatch hk⟩
  | cons k rest ih =>
    intro cs hinv
    obtain ⟨hinv1, hitem1, hmono1, hkeys1, hk1⟩ := collAddKey_inv k hitem hinv
    obtain ⟨hinv2, hmono2, hkeys2, hrest2⟩ := ih (collAddKey dedup MAX item cs k) hinv1
    rw [List.foldl_cons]
    refine ⟨hinv2, ?_, ?_, ?_⟩
    · intro k2 s0 h0
      exact hmono2 k2 s0 (hmono1 k2 s0 h0)
    · intro k2 h2
      exact hkeys2 k2 (hkeys1 k2 h2)
    · intro kx hkx
      rcases List.mem_cons.1 hkx with h | h
      · subst h
        exact ⟨hkeys2 kx hk1, hmono2 kx item hitem1⟩
      · exact hrest2 kx h

/-- Adding a whole batch of newline-free lines. -/
theorem collAddAll_inv (dedup : Bool) (MAX : Nat)
    (keysOf : List Nat → List (List Char)) :
    ∀ (items : List (List Nat)) (cs : CollectionState),
      allNlFree items = true → CollInv cs →
      CollInv (collAddAll dedup MAX keysOf items cs) ∧
        (∀ k2 s0, s0 ∈ linesOf (pending cs k2) →
          s0 ∈ linesOf (pending (collAddAll dedup MAX keysOf items cs) k2)) ∧
        (∀ k2, k2 ∈ cs.keys → k2 ∈ (collAddAll dedup MAX keysOf items cs).keys) ∧
        ∀ s ∈ items, ∀ k ∈ keysOf s,
          k ∈ (collAddAll dedup MAX keysOf items cs).keys ∧
            s ∈ linesOf (pending (collAddAll dedup MAX keysOf items cs) k) := by
  intro items
  induction items with
  | nil =>
    intro cs _ hinv
    exact ⟨hinv, fun _ _ h => h, fun _ h => h, fun s hs => nomatch hs⟩
  | cons item rest ih =>
    intro cs hnl hinv
    have hnl2 : (!(item.contains nlByte) && allNlFree rest) = true := by
      simpa [allNlFree] using hnl
    rw [Bool.and_eq_true] at hnl2
    have hitem : nlByte ∉ item := by
      have h2 := hnl2.1
      simp only [Bool.not_eq_true'] at h2
      simpa using h2
    obtain ⟨hinv1, hmono1, hkeys1, hthis1⟩ :=
      collAdd_keys_inv hitem (keysOf item) cs hinv
    rw [collAddAll]
    obtain ⟨hinv2, hmono2, hkeys2, hrest2⟩ :=
      ih (collAdd dedup MAX keysOf item cs) hnl2.2 hinv1
    refine ⟨hinv2, ?_, ?_, ?_⟩
    · intro k2 s0 h0
      exact hmono2 k2 s0 (hmono1 k2 s0 h0)
    · intro k2 h2
      exact hkeys2 k2 (hkeys1 k2 h2)
    · intro s hsmem k hk
      rcases List.mem_cons.1 hsmem with rfl | hsmem
      · obtain ⟨hka, hsa⟩ := hthis1 k hk
        exact ⟨hkeys2 k hka, hmono2 k s hsa⟩
      · exact hrest2 s hsmem k hk

/-- Flushing preserves the pending bytes of every shard. -/
theorem fileFlush_pending (st : IndexFileState) (file : Option (List Nat)) :
    (fileFlush st file).2.1.getD [] ++ (fileFlush st file).1.buffer =
      file.getD [] ++ st.buffer := by
  by_cases h : st.buffer = []
  · simp [fileFlush, h, flushBuffer_nil]
  · simp [fileFlush, flushBuffer_ne h]

theorem fileFlush_buffer (st : IndexFileState) (file : Option (List Nat)) :
    (fileFlush st file).1.buffer = [] := by
  by_cases h : st.buffer = []
  · simp [fileFlush, h, flushBuffer_nil]
  · simp [fileFlush, flushBuffer_ne h]

theorem collFlushKeys_pending :
    ∀ (ks : List (List Char)) (cs : CollectionState) (k : List Char),
      pending (collFlushKeys ks cs) k = pending cs k := by
  intro ks
  induction ks with
  | nil => intro cs k; rfl
  | cons k0 rest ih =>
    intro cs k
    rw [collFlushKeys, ih]
    by_cases hk : k = k0
    · subst hk
      simp only [pending, updateMap, if_pos rfl]
      exact fileFlush_pending _ _
    · simp [pending, updateMap, hk]

theorem collFlushKeys_buffer_stable :
    ∀ (ks : List (List Char)) (cs : CollectionState) (k : List Char),
      (cs.shards k).buffer = [] → ((collFlushKeys ks cs).shards k).buffer = [] := by
  intro ks
  induction ks with
  | nil => intro cs k h; exact h
  | cons k0 rest ih =>
    intro cs k h
    rw [collFlushKeys]
    apply ih
    by_cases hk : k = k0
    · subst hk
      simp only [updateMap, if_pos rfl]
      exact fileFlush_buffer _ _
    · simpa [updateMap, hk] using h

theorem collFlushKeys_buffer_of_mem :
    ∀ (ks : List (List Char)) (cs : CollectionState) (k : List Char),
      k ∈ ks → ((collFlushKeys ks cs).shards k).buffer = [] := by
  intro ks
  induction ks with
  | nil => intro cs k h; cases h
  | cons k0 rest ih =>
    intro cs k hk
    rcases List.mem_cons.1 hk with rfl | hk
    · rw [collFlushKeys]
      apply collFlushKeys_buffer_stable
      simp only [updateMap, if_pos rfl]
      exact fileFlush_buffer _ _
    · rw [collFlushKeys]
      exact ih _ k hk

theorem mem_linesOf_ne_nil {s c : List Nat} (h : s ∈ linesOf c) : c ≠ [] := by
  intro hc
  subst hc
  cases h

/-- C1, amended (the line must contain no `\n` byte; see the
counterexample): for every batch of newline-free byte strings passed to
`IndexCollection::add` and every key `k` the key-derivation pipeline
emits for a string `s` of the batch, after all buffers are flushed the
shard file of `k` exists and contains a line equal to `s` (regardless of
whether deduplication is enabled). -/
theorem c1_line_in_shard_after_flush (L D : Nat) (pats : List (List Char))
    (dedup : Bool) (MAX : Nat) (items : List (List Nat)) (s : List Nat)
    (k : List Char) (hnl : allNlFree items = true) (hs : s ∈ items)
    (hk : k ∈ indicesOf L D pats s) :
    ∃ content,
      (collFlushAll (collAddAll dedup MAX (indicesOf L D pats) items
          emptyCollection)).files k = some content ∧
        s ∈ linesOf content := by
  obtain ⟨-, -, -, hall⟩ :=
    collAddAll_inv dedup MAX (indicesOf L D pats) items emptyCollection hnl collInv_empty
  obtain ⟨hkmem, hsmem⟩ := hall s hs k hk
  set cs1 := collAddAll dedup MAX (indicesOf L D pats) items emptyCollection with hcs1
  have hpend : pending (collFlushAll cs1) k = pending cs1 k :=
    collFlushKeys_pending cs1.keys cs1 k
  have hbuf : ((collFlushAll cs1).shards k).buffer = [] :=
    collFlushKeys_buffer_of_mem cs1.keys cs1 k hkmem
  have hsmem2 : s ∈ linesOf (pending (collFlushAll cs1) k) := by
    rw [hpend]; exact hsmem
  have hne : pending (collFlushAll cs1) k ≠ [] := mem_linesOf_ne_nil hsmem2
  cases hfile : (collFlushAll cs1).files k with
  | none =>
    exfalso
    apply hne
    simp [pending, hfile, hbuf]
  | some content =>
    refine ⟨content, rfl, ?_⟩
    have : pending (collFlushAll cs1) k = content := by
      simp [pending, hfile, hbuf]
    rw [← this]
    exact hsmem2

/-- Witness for `c1_line_in_shard_after_flush` at a concrete instance. -/
theorem c1_line_in_shard_after_flush_witness :
    (allNlFree [[104, 105, 106]] = true ∧ [104, 105, 106] ∈ [[104, 105, 106]] ∧
      "hij".data ∈ indicesOf 3 1 (initAutomatonPatterns 3 enCommonWords) [104, 105, 106]) ∧
    ∃ content,
      (collFlushAll (collAddAll false 4096
          (indicesOf 3 1 (initAutomatonPatterns 3 enCommonWords)) [[104, 105, 106]]
          emptyCollection)).files "hij".data = some content ∧
        [104, 105, 106] ∈ linesOf content :=
  ⟨⟨by decide, by decide, by decide⟩,
    c1_line_in_shard_after_flush 3 1 (initAutomatonPatterns 3 enCommonWords) false 4096
      [[104, 105, 106]] [104, 105, 106] "hij".data (by decide) (by decide) (by decide)⟩

/-- C1, counterexample: the byte string `abc\ndef` derives the key `abc`
(the newline is dropped by normalization), but after adding and flushing,
the shard file of `abc` holds the two lines `abc` and `def` — no line of
the shard equals the original byte string, refuting the claim for
arbitrary byte strings. -/
theorem c1_counterexample :
    ("abc".data ∈ indicesOf 3 1 (initAutomatonPatterns 3 enCommonWords)
        [97, 98, 99, 10, 100, 101, 102]) ∧
    ¬∃ content,
        (collFlushAll (collAddAll false 4096
            (indicesOf 3 1 (initAutomatonPatterns 3 enCommonWords))
            [[97, 98, 99, 10, 100, 101, 102]] emptyCollection)).files "abc".data
          = some content ∧
          [97, 98, 99, 10, 100, 101, 102] ∈ linesOf content := by
  constructor
  · decide
  · rintro ⟨content, hc, hmem⟩
    have h2 : (collFlushAll (collAddAll false 4096
        (indicesOf 3 1 (initAutomatonPatterns 3 enCommonWords))
        [[97, 98, 99, 10, 100, 101, 102]] emptyCollection)).files "abc".data
        = some [97, 98, 99, 10, 100, 101, 102, 10] := by decide
    rw [h2, Option.some.injEq] at hc
    subst hc
    revert hmem
    decide

/-! ## Claim C3

The claim characterizes the positional phase of the iterator.  The split
is formalized by two spec-level functions: `posPhaseAux` (the
deduplicated positional slices together with the seen-set they build)
and `commonPhase` (the deduplicated common-word match substrings emitted
afterwards, stopping at an invalid range as the iterator does). -/

/-- The deduplicated positional keys `item[i..i+L]` over a list of
offsets, threading the seen-set. -/
def posPhaseAux (L : Nat) (item : List Char) (seen : List (List Char)) :
    List Nat → List (List Char) × List (List Char)
  | [] => ([], seen)
  | i :: is =>
    let k := (item.drop i).take L
    if k ∈ seen then posPhaseAux L item seen is
    else
      let r := posPhaseAux L item (k :: seen) is
      (k :: r.1, r.2)

/-- The exclusive upper bound of the positional offsets the code scans:
`i < D` and `i + L ≤ item.len()`. -/
def posKeyBound (L D : Nat) (item : List Char) : Nat := min D (item.length + 1 - L)

/-- The common-word keys emitted after the positional phase: distinct
match substrings in match order, deduplicated against `seen`; an invalid
match range ends the iteration. -/
def commonPhase (item : List Char) : List (List Char) → List (Nat × Nat) → List (List Char)
  | _, [] => []
  | seen, m :: rest =>
    match sliceGet item m.1 m.2 with
    | none => []
    | some w =>
      if w ∈ seen then commonPhase item seen rest
      else w :: commonPhase item (w :: seen) rest

/-- All match ranges lie within the item (true of every automaton
match). -/
def QueueValid (item : List Char) (queue : List (Nat × Nat)) : Prop :=
  ∀ m ∈ queue, m.1 ≤ m.2 ∧ m.2 ≤ item.length

/-- The termination measure of the iterator state. -/
def iterMeasure (D : Nat) (st : IndexOfState) : Nat :=
  (D - st.index) + st.queue.length

theorem findOccFrom_sound (pats : List (List Char)) (L : Nat) (hay : List Char) :
    ∀ f i j, findOccFrom pats L hay f i = some j →
      i ≤ j ∧ matchesAt pats L hay j = true := by
  intro f
  induction f with
  | zero => intro i j h; cases h
  | succ f ih =>
    intro i j h
    rw [findOccFrom] at h
    by_cases h1 : i + L > hay.length
    · rw [if_pos h1] at h; cases h
    · rw [if_neg h1] at h
      by_cases h2 : matchesAt pats L hay i = true
      · rw [if_pos h2] at h
        rw [Option.some.injEq] at h
        subst h
        exact ⟨Nat.le_refl i, h2⟩
      · rw [if_neg h2] at h
        obtain ⟨h3, h4⟩ := ih (i + 1) j h
        exact ⟨Nat.le_of_succ_le h3, h4⟩

theorem acFindAux_sound (pats : List (List Char)) (L : Nat) (hay : List Char) :
    ∀ f p r, r ∈ acFindAux pats L hay f p →
      p ≤ r.1 ∧ r.2 = r.1 + L ∧ matchesAt pats L hay r.1 = true := by
  intro f
  induction f with
  | zero => intro p r h; cases h
  | succ f ih =>
    intro p r h
    rw [acFindAux] at h
    cases hf : findOccFrom pats L hay (hay.length + 1) p with
    | none => rw [hf] at h; cases h
    | some i =>
      rw [hf] at h
      obtain ⟨hpi, hm⟩ := findOccFrom_sound pats L hay _ p i hf
      rcases List.mem_cons.1 h with rfl | h2
      · exact ⟨hpi, rfl, hm⟩
      · obtain ⟨h3, h4, h5⟩ := ih (i + L) r h2
        exact ⟨Nat.le_trans hpi (Nat.le_trans (Nat.le_add_right i L) h3), h4, h5⟩

theorem acFind_valid (pats : List (List Char)) (L : Nat) (hay : List Char) :
    QueueValid hay (acFind pats L hay) := by
  intro m hm
  obtain ⟨-, h2, h3⟩ := acFindAux_sound pats L hay _ _ m hm
  rw [matchesAt, decide_eq_true_iff] at h3
  constructor
  · rw [h2]; exact Nat.le_add_right _ _
  · rw [h2]; exact h3.1

theorem nextByCommonWordsAux_cons_none (item : List Char) (seen : List (List Char))
    (m : Nat × Nat) (rest : List (Nat × Nat)) (h : sliceGet item m.1 m.2 = none) :
    nextByCommonWordsAux item seen (m :: rest) = (rest, seen, none) := by
  rw [nextByCommonWordsAux, h]

theorem nextByCommonWordsAux_cons_dup (item : List Char) (seen : List (List Char))
    (m : Nat × Nat) (rest : List (Nat × Nat)) {w : List Char}
    (h : sliceGet item m.1 m.2 = some w) (hw : w ∈ seen) :
    nextByCommonWordsAux item seen (m :: rest) = nextByCommonWordsAux item seen rest := by
  rw [nextByCommonWordsAux, h]
  exact if_pos hw

theorem nextByCommonWordsAux_cons_new (item : List Char) (seen : List (List Char))
    (m : Nat × Nat) (rest : List (Nat × Nat)) {w : List Char}
    (h : sliceGet item m.1 m.2 = some w) (hw : w ∉ seen) :
    nextByCommonWordsAux item seen (m :: rest) = (rest, w :: seen, some w) := by
  rw [nextByCommonWordsAux, h]
  exact if_neg hw

theorem commonPhase_cons_none (item : List Char) (seen : List (List Char))
    (m : Nat × Nat) (rest : List (Nat × Nat)) (h : sliceGet item m.1 m.2 = none) :
    commonPhase item seen (m :: rest) = [] := by
  rw [commonPhase, h]

theorem commonPhase_cons_dup (item : List Char) (seen : List (List Char))
    (m : Nat × Nat) (rest : List (Nat × Nat)) {w : List Char}
    (h : sliceGet item m.1 m.2 = some w) (hw : w ∈ seen) :
    commonPhase item seen (m :: rest) = commonPhase item seen rest := by
  rw [commonPhase, h]
  exact if_pos hw

theorem commonPhase_cons_new (item : List Char) (seen : List (List Char))
    (m : Nat × Nat) (rest : List (Nat × Nat)) {w : List Char}
    (h : sliceGet item m.1 m.2 = some w) (hw : w ∉ seen) :
    commonPhase item seen (m :: rest) = w :: commonPhase item (w :: seen) rest := by
  rw [commonPhase, h]
  exact if_neg hw

theorem nextByCommonWordsAux_some (item : List Char) :
    ∀ (queue : List (Nat × Nat)) (seen : List (List Char)) q2 s2 w,
      nextByCommonWordsAux item seen queue = (q2, s2, some w) →
      commonPhase item seen queue = w :: commonPhase item s2 q2 ∧
        q2.length < queue.length ∧ s2 = w :: seen ∧
        (∀ m ∈ q2, m ∈ queue) := by
  intro queue
  induction queue with
  | nil => intro seen q2 s2 w h; cases h
  | cons m rest ih =>
    intro seen q2 s2 w h
    cases hsl : sliceGet item m.1 m.2 with
    | none =>
      rw [nextByCommonWordsAux_cons_none item seen m rest hsl] at h
      simp only [Prod.mk.injEq] at h
      cases h.2.2
    | some w0 =>
      by_cases hw : w0 ∈ seen
      · rw [nextByCommonWordsAux_cons_dup item seen m rest hsl hw] at h
        obtain ⟨h1, h2, h3, h4⟩ := ih seen q2 s2 w h
        refine ⟨?_, Nat.lt_succ_of_lt h2, h3,
          fun x hx => List.mem_cons_of_mem m (h4 x hx)⟩
        rw [commonPhase_cons_dup item seen m rest hsl hw]
        exact h1
      · rw [nextByCommonWordsAux_cons_new item seen m rest hsl hw] at h
        simp only [Prod.mk.injEq, Option.some.injEq] at h
        obtain ⟨h1, h2, h3⟩ := h
        subst h1
        subst h2
        subst h3
        refine ⟨?_, Nat.lt_succ_self _, rfl, fun x hx => List.mem_cons_of_mem m hx⟩
        rw [commonPhase_cons_new item seen m rest hsl hw]

theorem nextByCommonWordsAux_none (item : List Char) :
    ∀ (queue : List (Nat × Nat)) (seen : List (List Char)) q2 s2,
      QueueValid item queue →
      nextByCommonWordsAux item seen queue = (q2, s2, none) →
      q2 = [] ∧ s2 = seen ∧ commonPhase item seen queue = [] := by
  intro queue
  induction queue with
  | nil =>
    intro seen q2 s2 _ h
    rw [nextByCommonWordsAux] at h
    simp only [Prod.mk.injEq] at h
    exact ⟨h.1.symm, h.2.1.symm, rfl⟩
  | cons m rest ih =>
    intro seen q2 s2 hv h
    cases hsl : sliceGet item m.1 m.2 with
    | none =>
      exfalso
      obtain ⟨h1, h2⟩ := hv m (List.mem_cons_self m rest)
      rw [sliceGet, if_pos ⟨h1, h2⟩] at hsl
      cases hsl
    | some w0 =>
      by_cases hw : w0 ∈ seen
      · rw [nextByCommonWordsAux_cons_dup item seen m rest hsl hw] at h
        obtain ⟨h1, h2, h3⟩ := ih seen q2 s2
          (fun x hx => hv x (List.mem_cons_of_mem m hx)) h
        refine ⟨h1, h2, ?_⟩
        rw [commonPhase_cons_dup item seen m rest hsl hw]
        exact h3
      · rw [nextByCommonWordsAux_cons_new item seen m rest hsl hw] at h
        simp only [Prod.mk.injEq] at h
        cases h.2.2

theorem posStep_stop_of (L D : Nat) (st : IndexOfState)
    (h : st.item = [] ∨ st.item.length < st.index + L ∨ D ≤ st.index) :
    posStep L D st = .stop := by
  by_cases h1 : st.item = []
  · rw [posStep, if_pos h1]
  · rw [posStep, if_neg h1]
    by_cases h2 : st.index + L > st.item.length
    · rw [if_pos h2]
    · rw [if_neg h2]
      have h3 : D ≤ st.index := by
        rcases h with h | h | h
        · exact absurd h h1
        · omega
        · exact h
      rw [if_pos h3]

theorem posStep_active (L D : Nat) (st : IndexOfState) (hne : st.item ≠ [])
    (hlen : st.index + L ≤ st.item.length) (hD : st.index < D) :
    posStep L D st =
      if (st.item.drop st.index).take L ∈ st.seen
      then PosStep.dup { st with index := st.index + 1 }
      else PosStep.yield ((st.item.drop st.index).take L)
        { st with index := st.index + 1,
                  seen := (st.item.drop st.index).take L :: st.seen } := by
  have hslice : sliceGet st.item st.index (min (st.index + L) st.item.length) =
      some ((st.item.drop st.index).take L) := by
    have harg : st.index + L - st.index = L := by omega
    rw [sliceGet, if_pos ⟨Nat.le_min.2 ⟨by omega, by omega⟩, Nat.min_le_right _ _⟩,
      Nat.min_eq_left hlen, harg]
  simp only [posStep, if_neg hne,
    if_neg (show ¬(st.index + L > st.item.length) by omega),
    if_neg (show ¬(D ≤ st.index) by omega), hslice]

theorem posStep_stop_cases (L D : Nat) (st : IndexOfState)
    (h : posStep L D st = .stop) :
    st.item = [] ∨ st.item.length < st.index + L ∨ D ≤ st.index := by
  by_contra hc
  push_neg at hc
  obtain ⟨h1, h2, h3⟩ := hc
  rw [posStep_active L D st h1 (by omega) (by omega)] at h
  by_cases hw : (st.item.drop st.index).take L ∈ st.seen
  · rw [if_pos hw] at h; cases h
  · rw [if_neg hw] at h; cases h

theorem posStep_dup_cases (L D : Nat) (st st1 : IndexOfState)
    (h : posStep L D st = .dup st1) :
    st1 = { st with index := st.index + 1 } ∧ st.index < D ∧
      st.index + L ≤ st.item.length ∧ st.item ≠ [] ∧
      (st.item.drop st.index).take L ∈ st.seen := by
  have h1 : st.item ≠ [] := by
    intro hh
    rw [posStep_stop_of L D st (Or.inl hh)] at h
    cases h
  have h2 : st.index + L ≤ st.item.length := by
    by_contra hh
    rw [posStep_stop_of L D st (Or.inr (Or.inl (by omega)))] at h
    cases h
  have h3 : st.index < D := by
    by_contra hh
    rw [posStep_stop_of L D st (Or.inr (Or.inr (by omega)))] at h
    cases h
  rw [posStep_active L D st h1 h2 h3] at h
  by_cases hw : (st.item.drop st.index).take L ∈ st.seen
  · rw [if_pos hw] at h
    injection h with h4
    exact ⟨h4.symm, h3, h2, h1, hw⟩
  · rw [if_neg hw] at h
    cases h

theorem posStep_yield_cases (L D : Nat) (st st1 : IndexOfState) (k : List Char)
    (h : posStep L D st = .yield k st1) :
    k = (st.item.drop st.index).take L ∧
      st1 = { st with index := st.index + 1, seen := k :: st.seen } ∧
      st.index < D ∧ st.index + L ≤ st.item.length ∧ st.item ≠ [] ∧ k ∉ st.seen := by
  have h1 : st.item ≠ [] := by
    intro hh
    rw [posStep_stop_of L D st (Or.inl hh)] at h
    cases h
  have h2 : st.index + L ≤ st.item.length := by
    by_contra hh
    rw [posStep_stop_of L D st (Or.inr (Or.inl (by omega)))] at h
    cases h
  have h3 : st.index < D := by
    by_contra hh
    rw [posStep_stop_of L D st (Or.inr (Or.inr (by omega)))] at h
    cases h
  rw [posStep_active L D st h1 h2 h3] at h
  by_cases hw : (st.item.drop st.index).take L ∈ st.seen
  · rw [if_pos hw] at h
    cases h
  · rw [if_neg hw] at h
    injection h with h4 h5
    subst h4
    exact ⟨rfl, h5.symm, h3, h2, h1, hw⟩

theorem nextFuel_congr (L D : Nat) :
    ∀ f g st, D - st.index < f → D - st.index < g →
      nextFuel L D f st = nextFuel L D g st := by
  intro f
  induction f with
  | zero => intro g st h; omega
  | succ f ih =>
    intro g st hf hg
    cases g with
    | zero => omega
    | succ g =>
      cases hps : posStep L D st with
      | yield k st1 => simp only [nextFuel, hps]
      | stop => simp only [nextFuel, hps]
      | dup st1 =>
        obtain ⟨hst1, hD, -, -, -⟩ := posStep_dup_cases L D st st1 hps
        have hidx : st1.index = st.index + 1 := by rw [hst1]
        simp only [nextFuel, hps]
        rw [ih g st1 (by omega) (by omega)]

theorem indexOfNext_yield {L D : Nat} {st st1 : IndexOfState} {k : List Char}
    (h : posStep L D st = .yield k st1) : indexOfNext L D st = (st1, some k) := by
  rw [indexOfNext]
  simp only [nextFuel, h]

theorem indexOfNext_stop {L D : Nat} {st : IndexOfState}
    (h : posStep L D st = .stop) : indexOfNext L D st = nextByCommonWords st := by
  rw [indexOfNext]
  simp only [nextFuel, h]

theorem indexOfNext_dup {L D : Nat} {st st1 : IndexOfState}
    (h : posStep L D st = .dup st1) :
    indexOfNext L D st =
      match indexOfNext L D st1 with
      | (st2, some k) => (st2, some k)
      | (st2, none) => nextByCommonWords st2 := by
  obtain ⟨hst1, hD, -, -, -⟩ := posStep_dup_cases L D st st1 h
  have hidx : st1.index = st.index + 1 := by rw [hst1]
  rw [indexOfNext]
  simp only [nextFuel, h]
  rw [show nextFuel L D D st1 = nextFuel L D (D + 1) st1 from
    nextFuel_congr L D D (D + 1) st1 (by omega) (by omega)]
  rfl

theorem nextByCommonWords_nil {st : IndexOfState} (h : st.queue = []) :
    nextByCommonWords st = (st, none) := by
  cases st with
  | mk item index queue seen =>
    simp only at h
    subst h
    rfl

theorem nextByCommonWords_eq (st : IndexOfState) (q2 : List (Nat × Nat))
    (s2 : List (List Char)) (opt : Option (List Char))
    (h : nextByCommonWordsAux st.item st.seen st.queue = (q2, s2, opt)) :
    nextByCommonWords st = ({ st with queue := q2, seen := s2 }, opt) := by
  rw [nextByCommonWords, h]

theorem nextFuel_none_queue (L D : Nat) :
    ∀ f st st2, D - st.index < f → QueueValid st.item st.queue →
      nextFuel L D f st = (st2, none) → st2.queue = [] := by
  intro f
  induction f with
  | zero => intro st st2 h; omega
  | succ f ih =>
    intro st st2 hf hv h
    cases hps : posStep L D st with
    | yield k st1 =>
      simp only [nextFuel, hps] at h
      simp only [Prod.mk.injEq] at h
      cases h.2
    | stop =>
      simp only [nextFuel, hps] at h
      cases haux : nextByCommonWordsAux st.item st.seen st.queue with
      | mk q2 r2 =>
        obtain ⟨s2, opt⟩ := r2
        rw [nextByCommonWords_eq st q2 s2 opt haux] at h
        simp only [Prod.mk.injEq] at h
        cases opt with
        | some w => cases h.2
        | none =>
          obtain ⟨hq, -, -⟩ :=
            nextByCommonWordsAux_none st.item st.queue st.seen q2 s2 hv haux
          rw [← h.1]
          simpa using hq
    | dup st1 =>
      obtain ⟨hst1, hD, -, -, -⟩ := posStep_dup_cases L D st st1 hps
      have hidx : st1.index = st.index + 1 := by rw [hst1]
      have hitem : st1.item = st.item := by rw [hst1]
      have hqueue : st1.queue = st.queue := by rw [hst1]
      simp only [nextFuel, hps] at h
      cases hin : nextFuel L D f st1 with
      | mk st3 r3 =>
        rw [hin] at h
        cases r3 with
        | some k =>
          simp only [Prod.mk.injEq] at h
          cases h.2
        | none =>
          have h3 : st3.queue = [] := by
            apply ih st1 st3 (by omega) _ hin
            rw [hitem, hqueue]
            exact hv
          change nextByCommonWords st3 = (st2, none) at h
          rw [nextByCommonWords_nil h3] at h
          simp only [Prod.mk.injEq] at h
          rw [← h.1]
          exact h3

/-- On a duplicate positional key the iterator behaves exactly as from
the advanced state (the doubled `next_by_common_words` call in the
`or_else` is harmless: it can only fire on an empty queue). -/
theorem indexOfNext_dup_eq {L D : Nat} {st st1 : IndexOfState}
    (h : posStep L D st = .dup st1) (hv : QueueValid st.item st.queue) :
    indexOfNext L D st = indexOfNext L D st1 := by
  obtain ⟨hst1, hD, -, -, -⟩ := posStep_dup_cases L D st st1 h
  rw [indexOfNext_dup h]
  cases hin : indexOfNext L D st1 with
  | mk st3 r3 =>
    cases r3 with
    | some k2 => rfl
    | none =>
      show nextByCommonWords st3 = (st3, none)
      apply nextByCommonWords_nil
      apply nextFuel_none_queue L D (D + 1) st1 st3 ?_ ?_ hin
      · rw [hst1]
        show D - (st.index + 1) < D + 1
        omega
      · rw [hst1]
        exact hv

theorem emit_stop_state (L D : Nat) :
    ∀ f st, posStep L D st = .stop → QueueValid st.item st.queue →
      st.queue.length < f →
      emitFuel L D f st = commonPhase st.item st.seen st.queue := by
  intro f
  induction f with
  | zero => intro st _ _ h; omega
  | succ f ih =>
    intro st hstop hv hlen
    simp only [emitFuel]
    rw [indexOfNext_stop hstop]
    cases haux : nextByCommonWordsAux st.item st.seen st.queue with
    | mk q2 r2 =>
      obtain ⟨s2, opt⟩ := r2
      rw [nextByCommonWords_eq st q2 s2 opt haux]
      cases opt with
      | none =>
        obtain ⟨-, -, hcp⟩ :=
          nextByCommonWordsAux_none st.item st.queue st.seen q2 s2 hv haux
        rw [hcp]
      | some w =>
        obtain ⟨hcp, hlt, -, hsub⟩ :=
          nextByCommonWordsAux_some st.item st.queue st.seen q2 s2 w haux
        rw [hcp]
        show w :: emitFuel L D f { st with queue := q2, seen := s2 } =
          w :: commonPhase st.item s2 q2
        congr 1
        apply ih
        · apply posStep_stop_of
          have := posStep_stop_cases L D st hstop
          simpa using this
        · intro m hm
          exact hv m (hsub m hm)
        · show q2.length < f
          omega

theorem posPhaseAux_cons (L : Nat) (item : List Char) (seen : List (List Char))
    (i : Nat) (is : List Nat) :
    posPhaseAux L item seen (i :: is) =
      if (item.drop i).take L ∈ seen then posPhaseAux L item seen is
      else ((item.drop i).take L ::
          (posPhaseAux L item ((item.drop i).take L :: seen) is).1,
        (posPhaseAux L item ((item.drop i).take L :: seen) is).2) := rfl

/-- The expected output of draining the iterator from an arbitrary state:
the remaining deduplicated positional keys followed by the remaining
deduplicated common-word keys. -/
def iterTarget (L D : Nat) (st : IndexOfState) : List (List Char) :=
  (posPhaseAux L st.item st.seen
      (List.range' st.index (posKeyBound L D st.item - st.index))).1 ++
    commonPhase st.item
      (posPhaseAux L st.item st.seen
        (List.range' st.index (posKeyBound L D st.item - st.index))).2
      st.queue

theorem emit_split (L D : Nat) (hL : 1 ≤ L) :
    ∀ n st, iterMeasure D st ≤ n → QueueValid st.item st.queue →
      ∀ f, iterMeasure D st < f → emitFuel L D f st = iterTarget L D st := by
  intro n
  induction n using Nat.strong_induction_on with
  | _ n ih =>
    intro st hn hv f hf
    cases hps : posStep L D st with
    | stop =>
      have hcases := posStep_stop_cases L D st hps
      have hrange : posKeyBound L D st.item - st.index = 0 := by
        rw [posKeyBound]
        rcases hcases with h | h | h
        · rw [h]
          simp only [List.length_nil]
          omega
        · omega
        · omega
      rw [iterTarget, hrange, List.range'_zero]
      have hlen : st.queue.length < f := by
        have : st.queue.length ≤ iterMeasure D st := by rw [iterMeasure]; omega
        omega
      rw [emit_stop_state L D f st hps hv hlen]
      rfl
    | yield k st1 =>
      obtain ⟨hk, hst1, hD, hlen, hne, hseen⟩ := posStep_yield_cases L D st st1 k hps
      have hidx : st1.index = st.index + 1 := by rw [hst1]
      have hitem : st1.item = st.item := by rw [hst1]
      have hqueue : st1.queue = st.queue := by rw [hst1]
      have hseen1 : st1.seen = k :: st.seen := by rw [hst1]
      have hKgt : st.index < posKeyBound L D st.item := by
        rw [posKeyBound]
        omega
      have hmeas : iterMeasure D st1 < iterMeasure D st := by
        rw [iterMeasure, iterMeasure, hidx, hqueue]
        omega
      cases f with
      | zero => omega
      | succ f =>
        simp only [emitFuel]
        rw [indexOfNext_yield hps]
        have hrec := ih (iterMeasure D st1) (by omega) st1 (Nat.le_refl _)
          (by rw [hitem, hqueue]; exact hv) f (by omega)
        show k :: emitFuel L D f st1 = iterTarget L D st
        rw [hrec]
        rw [iterTarget, iterTarget]
        have hsplit : posKeyBound L D st.item - st.index =
            (posKeyBound L D st.item - st1.index) + 1 := by
          rw [hidx]; omega
        rw [hsplit, List.range'_succ]
        have haux : posPhaseAux L st.item st.seen
            (st.index :: List.range' (st.index + 1) (posKeyBound L D st.item - st1.index)) =
            (k :: (posPhaseAux L st.item (k :: st.seen)
                (List.range' (st.index + 1) (posKeyBound L D st.item - st1.index))).1,
              (posPhaseAux L st.item (k :: st.seen)
                (List.range' (st.index + 1) (posKeyBound L D st.item - st1.index))).2) := by
          rw [posPhaseAux_cons, if_neg (by rw [← hk]; exact hseen), hk]
        rw [haux]
        rw [hitem, hidx, hseen1]
        rw [hqueue]
        rfl
    | dup st1 =>
      obtain ⟨hst1, hD, hlen, hne, hseen⟩ := posStep_dup_cases L D st st1 hps
      have hidx : st1.index = st.index + 1 := by rw [hst1]
      have hitem : st1.item = st.item := by rw [hst1]
      have hqueue : st1.queue = st.queue := by rw [hst1]
      have hseen1 : st1.seen = st.seen := by rw [hst1]
      have hKgt : st.index < posKeyBound L D st.item := by
        rw [posKeyBound]
        omega
      have hmeas : iterMeasure D st1 < iterMeasure D st := by
        rw [iterMeasure, iterMeasure, hidx, hqueue]
        omega
      have htarget : iterTarget L D st = iterTarget L D st1 := by
        rw [iterTarget, iterTarget]
        have hsplit : posKeyBound L D st.item - st.index =
            (posKeyBound L D st.item - st1.index) + 1 := by
          rw [hidx]; omega
        rw [hsplit, List.range'_succ]
        have haux : posPhaseAux L st.item st.seen
            (st.index :: List.range' (st.index + 1) (posKeyBound L D st.item - st1.index)) =
            posPhaseAux L st.item st.seen
              (List.range' (st.index + 1) (posKeyBound L D st.item - st1.index)) := by
          rw [posPhaseAux_cons, if_pos hseen]
        rw [haux, hitem, hidx, hseen1, hqueue]
      rw [htarget]
      have hrec : emitFuel L D f st1 = iterTarget L D st1 :=
        ih (iterMeasure D st1) (by omega) st1 (Nat.le_refl _)
          (by rw [hitem, hqueue]; exact hv) f (by omega)
      rw [← hrec]
      cases f with
      | zero => omega
      | succ f =>
        simp only [emitFuel]
        rw [indexOfNext_dup_eq hps hv]

/-- C3, amended: for every input, the positional phase of the `IndexOf`
iterator emits exactly the substrings `item[i..i+L]` for
`i = 0 .. min(D, item.len() - L + 1)` (exclusive), i.e. for the offsets
with `i < D` and `i + L ≤ item.len()`, in increasing order of `i` with
duplicates suppressed by the shared seen-set; every remaining key comes
from the common-word phase, deduplicated against the same seen-set.  The
claimed exclusive bound `min(D, item.len() - L)` is off by one (see the
counterexample). -/
theorem c3_positional_phase (L D : Nat) (pats : List (List Char)) (bs : List Nat)
    (hL : 1 ≤ L) :
    indicesOf L D pats bs =
      (posPhaseAux L (itemOfBytes bs) []
          (List.range (posKeyBound L D (itemOfBytes bs)))).1 ++
        commonPhase (itemOfBytes bs)
          (posPhaseAux L (itemOfBytes bs) []
            (List.range (posKeyBound L D (itemOfBytes bs)))).2
          (acFind pats L (itemOfBytes bs)) := by
  have hval : QueueValid (indexOfInit L pats bs).item (indexOfInit L pats bs).queue :=
    acFind_valid pats L (itemOfBytes bs)
  have hfuel : iterMeasure D (indexOfInit L pats bs) <
      D + (indexOfInit L pats bs).queue.length + 1 := by
    show (D - 0) + (acFind pats L (itemOfBytes bs)).length <
      D + (acFind pats L (itemOfBytes bs)).length + 1
    omega
  have hemit : indicesOf L D pats bs =
      emitFuel L D (D + (indexOfInit L pats bs).queue.length + 1)
        (indexOfInit L pats bs) := rfl
  rw [hemit, emit_split L D hL (iterMeasure D (indexOfInit L pats bs))
    (indexOfInit L pats bs) (Nat.le_refl _) hval _ hfuel]
  show (posPhaseAux L (itemOfBytes bs) []
      (List.range' 0 (posKeyBound L D (itemOfBytes bs) - 0))).1 ++
    commonPhase (itemOfBytes bs)
      (posPhaseAux L (itemOfBytes bs) []
        (List.range' 0 (posKeyBound L D (itemOfBytes bs) - 0))).2
      (acFind pats L (itemOfBytes bs)) = _
  rw [Nat.sub_zero, ← List.range_eq_range']

/-- Witness for `c3_positional_phase` at a concrete instance. -/
theorem c3_positional_phase_witness :
    (1 ≤ 3) ∧
    indicesOf 3 1 (initAutomatonPatterns 3 enCommonWords) [97, 98, 99] =
      (posPhaseAux 3 (itemOfBytes [97, 98, 99]) []
          (List.range (posKeyBound 3 1 (itemOfBytes [97, 98, 99])))).1 ++
        commonPhase (itemOfBytes [97, 98, 99])
          (posPhaseAux 3 (itemOfBytes [97, 98, 99]) []
            (List.range (posKeyBound 3 1 (itemOfBytes [97, 98, 99])))).2
          (acFind (initAutomatonPatterns 3 enCommonWords) 3 (itemOfBytes [97, 98, 99])) :=
  ⟨by decide, c3_positional_phase 3 1 (initAutomatonPatterns 3 enCommonWords)
    [97, 98, 99] (by decide)⟩

/-- C3, counterexample: with the production parameters `L = 3`, `D = 1`,
on the input `abc` (normalized item `abc`, length 3), the claimed offset
range `0 .. min(D, item.len() - L) = 0 .. 0` is empty, so the claim says
no positional key is emitted; the iterator in fact emits the positional
key `abc` (at offset `i = 0`, which satisfies the code's guards `i < D`
and `i + L ≤ item.len()`). -/
theorem c3_counterexample :
    ¬(indicesOf 3 1 (initAutomatonPatterns 3 enCommonWords) [97, 98, 99] =
        (posPhaseAux 3 (itemOfBytes [97, 98, 99]) []
            (List.range (min 1 ((itemOfBytes [97, 98, 99]).length - 3)))).1 ++
          commonPhase (itemOfBytes [97, 98, 99])
            (posPhaseAux 3 (itemOfBytes [97, 98, 99]) []
              (List.range (min 1 ((itemOfBytes [97, 98, 99]).length - 3)))).2
            (acFind (initAutomatonPatterns 3 enCommonWords) 3
              (itemOfBytes [97, 98, 99]))) := by
  decide

/-- Witness for `c4_buffer_and_flush_whole_lines` at a concrete op
sequence. -/
theorem c4_buffer_and_flush_whole_lines_witness :
    (opsNlFree [FileOp.add [104, 105], FileOp.flush, FileOp.add [104]] = true) ∧
    (IsLineFlat (runFileOps false 4096 [FileOp.add [104, 105], FileOp.flush,
          FileOp.add [104]] (emptyIndexFile, none, [])).1.buffer ∧
      (∀ c, (runFileOps false 4096 [FileOp.add [104, 105], FileOp.flush,
          FileOp.add [104]] (emptyIndexFile, none, [])).2.1 = some c → IsLineFlat c) ∧
      ∀ w ∈ (runFileOps false 4096 [FileOp.add [104, 105], FileOp.flush,
          FileOp.add [104]] (emptyIndexFile, none, [])).2.2,
        w ≠ [] ∧ w.getLast? = some nlByte ∧ IsLineFlat w) :=
  ⟨by decide, c4_buffer_and_flush_whole_lines false 4096 _ (by decide)⟩

/-! ## C8: the chunked reader cuts the stream only at separator boundaries -/

/-- The byte stream formed by a list of `sep`-terminated lines. -/
def lineUnits (sep : Nat) (ls : List (List Nat)) : List Nat :=
  (ls.map (fun l => l ++ [sep])).flatten

theorem lineUnits_cons (sep : Nat) (l : List Nat) (ls : List (List Nat)) :
    lineUnits sep (l :: ls) = l ++ sep :: lineUnits sep ls := by
  simp [lineUnits]

theorem lineUnits_append (sep : Nat) (a b : List (List Nat)) :
    lineUnits sep (a ++ b) = lineUnits sep a ++ lineUnits sep b := by
  simp [lineUnits]

theorem lineUnits_eq_nil (sep : Nat) (ls : List (List Nat))
    (h : lineUnits sep ls = []) : ls = [] := by
  cases ls with
  | nil => rfl
  | cons l rest => rw [lineUnits_cons] at h; simp at h

theorem lineUnits_getLast (sep : Nat) (ls : List (List Nat)) (h : ls ≠ []) :
    (lineUnits sep ls).getLast? = some sep := by
  induction ls with
  | nil => exact absurd rfl h
  | cons l rest ih =>
    rw [lineUnits_cons]
    cases rest with
    | nil => show (l ++ sep :: lineUnits sep []).getLast? = some sep
             rw [show lineUnits sep [] = [] from rfl]
             exact List.getLast?_concat l
    | cons l2 r2 =>
      have hy : lineUnits sep (l2 :: r2) ≠ [] := by
        rw [lineUnits_cons]; simp
      calc (l ++ sep :: lineUnits sep (l2 :: r2)).getLast?
          = (sep :: lineUnits sep (l2 :: r2)).getLast? :=
            List.getLast?_append_of_ne_nil l (by simp)
        _ = ([sep] ++ lineUnits sep (l2 :: r2)).getLast? := rfl
        _ = (lineUnits sep (l2 :: r2)).getLast? :=
            List.getLast?_append_of_ne_nil [sep] hy
        _ = some sep := ih (by simp)

/-- `read_until` on a stream starting with a `sep`-free segment followed by
`sep` reads exactly through that separator. -/
theorem readUntilSplit_line (sep : Nat) (t rest : List Nat) (h : sep ∉ t) :
    readUntilSplit sep (t ++ sep :: rest) = (t ++ [sep], rest) := by
  induction t with
  | nil => simp [readUntilSplit]
  | cons b t ih =>
    have hb : b ≠ sep := fun hc => h (hc ▸ List.mem_cons_self b t)
    have ih2 := ih (fun hc => h (List.mem_cons_of_mem b hc))
    rw [List.cons_append, readUntilSplit, if_neg hb]
    show (b :: (readUntilSplit sep (t ++ sep :: rest)).1,
      (readUntilSplit sep (t ++ sep :: rest)).2) = (b :: t ++ [sep], rest)
    rw [ih2]
    rfl

/-- Any prefix/suffix decomposition of a `sep`-terminated line stream is
either aligned on a line-unit boundary or cuts inside one line. -/
theorem lineUnits_prefix_split (sep : Nat) :
    ∀ (rem : List (List Nat)) (acc s : List Nat),
      acc ++ s = lineUnits sep rem →
      (∃ done lrest, rem = done ++ lrest ∧ acc = lineUnits sep done ∧
        s = lineUnits sep lrest) ∨
      (∃ done l ltail part t, rem = done ++ l :: ltail ∧
        acc = lineUnits sep done ++ part ∧ part ≠ [] ∧ l = part ++ t ∧
        s = t ++ sep :: lineUnits sep ltail)
  | [], acc, s, h => by
    left
    have h1 : acc = [] ∧ s = [] := by
      rw [show lineUnits sep [] = [] from rfl] at h
      exact List.append_eq_nil.mp h
    exact ⟨[], [], rfl, h1.1, h1.2⟩
  | l :: rest, acc, s, h => by
    by_cases ha : acc = []
    · left
      refine ⟨[], l :: rest, rfl, ha, ?_⟩
      rw [ha, List.nil_append] at h
      exact h
    · rw [lineUnits_cons] at h
      rcases Nat.lt_or_ge acc.length (l.length + 1) with hlt | hge
      · -- the cut is inside the first line unit (before its separator)
        right
        have hlen : acc.length ≤ l.length := Nat.lt_succ_iff.mp hlt
        have hacc : acc = l.take acc.length := by
          have h1 : (acc ++ s).take acc.length = acc := List.take_left acc s
          rw [h, List.take_append_of_le_length hlen] at h1
          exact h1.symm
        have hs : s = l.drop acc.length ++ sep :: lineUnits sep rest := by
          have h1 : (acc ++ s).drop acc.length = s := List.drop_left acc s
          rw [h, List.drop_append_of_le_length hlen] at h1
          exact h1.symm
        refine ⟨[], l, rest, acc, l.drop acc.length, rfl, ?_, ha, ?_, hs⟩
        · rw [show lineUnits sep [] = [] from rfl, List.nil_append]
        · conv_lhs => rw [← List.take_append_drop acc.length l, ← hacc]
      · -- the first line unit is entirely inside acc: recurse
        have hlen : l.length + 1 ≤ acc.length := hge
        have hshape : acc ++ s = (l ++ [sep]) ++ lineUnits sep rest := by
          rw [h]; simp
        have hlen' : l.length + 1 = (l ++ [sep]).length := by simp
        have hacc : acc.take (l.length + 1) = l ++ [sep] := by
          have h1 : (acc ++ s).take (l.length + 1) =
              acc.take (l.length + 1) := List.take_append_of_le_length hlen
          rw [hshape, hlen', List.take_left, ← hlen'] at h1
          exact h1.symm
        have hdec : acc.drop (l.length + 1) ++ s = lineUnits sep rest := by
          have h1 : (acc ++ s).drop (l.length + 1) =
              acc.drop (l.length + 1) ++ s := List.drop_append_of_le_length hlen
          rw [hshape, hlen', List.drop_left, ← hlen'] at h1
          exact h1.symm
        rcases lineUnits_prefix_split sep rest (acc.drop (l.length + 1)) s hdec with
          ⟨done, lrest, hrem, hacc2, hs2⟩ | ⟨done, l2, ltail, part, t, hrem, hacc2, hne, hl2, hs2⟩
        · left
          refine ⟨l :: done, lrest, by rw [hrem]; rfl, ?_, hs2⟩
          rw [lineUnits_cons]
          conv_lhs => rw [← List.take_append_drop (l.length + 1) acc, hacc, hacc2]
          simp
        · right
          refine ⟨l :: done, l2, ltail, part, t, by rw [hrem]; rfl, ?_, hne, hl2, hs2⟩
          rw [lineUnits_cons]
          conv_lhs => rw [← List.take_append_drop (l.length + 1) acc, hacc, hacc2]
          simp

/-- One unfolding of the `take_until` loop, phrased through the result of
`read_until` on the current stream. -/
theorem takeUntilLoop_succ (sep CS f read : Nat) (acc s p1 p2 : List Nat)
    (hp : readUntilSplit sep s = (p1, p2)) :
    takeUntilLoop sep CS (f + 1) read acc s =
      if CS ≤ read + p1.length ∨ p1.length = 0 then
        some (read, acc, { stream := p2, ov := p1, op := p1.length })
      else takeUntilLoop sep CS f (read + p1.length) (acc ++ p1) p2 := by
  show (let pr := readUntilSplit sep s
        let opp := pr.1.length
        if CS ≤ read + opp ∨ opp = 0 then
          some (read, acc, { stream := pr.2, ov := pr.1, op := opp })
        else takeUntilLoop sep CS f (read + opp) (acc ++ pr.1) pr.2) = _
  rw [hp]

/-- The `take_until` loop entered at a line-unit boundary, with an
accumulator made of whole line units, consumes whole units until the chunk
is full: the chunk grows only by whole units, and the overflow is left
holding the next whole unit (or empty at end of stream). -/
theorem takeUntilLoop_aligned (sep CS ML : Nat) (hCS : 2 * ML ≤ CS)
    (lrest : List (List Nat)) :
    ∀ (done : List (List Nat)) (fuel read : Nat) (acc : List Nat),
      (∀ l ∈ lrest, sep ∉ l ∧ l.length + 1 ≤ ML) →
      acc = lineUnits sep done → read = acc.length →
      (lineUnits sep lrest).length < fuel →
      ∃ out, takeUntilLoop sep CS fuel read acc (lineUnits sep lrest) = some out ∧
        ∃ da ra, out.1 = out.2.1.length ∧ out.2.1 = acc ++ lineUnits sep da ∧
          lrest = da ++ ra ∧
          out.2.2.ov.take out.2.2.op ++ out.2.2.stream = lineUnits sep ra ∧
          out.2.2.op = out.2.2.ov.length ∧ out.2.2.op ≤ ML ∧
          (out.1 = 0 → ra = []) := by
  induction lrest with
  | nil =>
    intro done fuel read acc hl hacc hread hfuel
    cases fuel with
    | zero => exact absurd hfuel (Nat.not_lt_zero _)
    | succ f =>
      rw [takeUntilLoop_succ sep CS f read acc (lineUnits sep []) [] [] (by rfl)]
      have hcond : CS ≤ read + ([] : List Nat).length ∨ ([] : List Nat).length = 0 :=
        Or.inr rfl
      rw [if_pos hcond]
      refine ⟨(read, acc, ⟨[], [], 0⟩), rfl, [], [], hread, ?_, rfl, rfl, rfl,
        Nat.zero_le ML, fun _ => rfl⟩
      rw [show lineUnits sep [] = [] from rfl, List.append_nil]
  | cons l ltail ih =>
    intro done fuel read acc hl hacc hread hfuel
    have hlsep : sep ∉ l := (hl l (List.mem_cons_self l ltail)).1
    have hlml : l.length + 1 ≤ ML := (hl l (List.mem_cons_self l ltail)).2
    cases fuel with
    | zero => exact absurd hfuel (Nat.not_lt_zero _)
    | succ f =>
      have hpr : readUntilSplit sep (lineUnits sep (l :: ltail)) =
          (l ++ [sep], lineUnits sep ltail) := by
        rw [lineUnits_cons]
        exact readUntilSplit_line sep l _ hlsep
      rw [takeUntilLoop_succ sep CS f read acc _ _ _ hpr]
      have hopp : (l ++ [sep]).length = l.length + 1 := by simp
      by_cases hex : CS ≤ read + (l ++ [sep]).length ∨ (l ++ [sep]).length = 0
      · rw [if_pos hex]
        have hread1 : 1 ≤ read := by
          rcases hex with h | h
          · rw [hopp] at h; omega
          · rw [hopp] at h; omega
        refine ⟨(read, acc, ⟨lineUnits sep ltail, l ++ [sep], (l ++ [sep]).length⟩),
          rfl, [], l :: ltail, hread, ?_, rfl, ?_, rfl, ?_, ?_⟩
        · rw [show lineUnits sep [] = [] from rfl, List.append_nil]
        · rw [List.take_length, lineUnits_cons]
          simp
        · rw [hopp]; exact hlml
        · intro h0; exact absurd h0 (by omega)
      · rw [if_neg hex]
        have hacc2 : acc ++ (l ++ [sep]) = lineUnits sep (done ++ [l]) := by
          rw [lineUnits_append, hacc]
          simp [lineUnits]
        have hfuel2 : (lineUnits sep ltail).length < f := by
          rw [lineUnits_cons, List.length_append, List.length_cons] at hfuel
          omega
        obtain ⟨out, hout, da, ra, hA, hB, hC, hD, hE, hF, hG⟩ :=
          ih (done ++ [l]) f (read + (l ++ [sep]).length) (acc ++ (l ++ [sep]))
            (fun l' hl' => hl l' (List.mem_cons_of_mem l hl'))
            hacc2 (by simp [hread]) hfuel2
        refine ⟨out, hout, l :: da, ra, hA, ?_, ?_, hD, hE, hF, ?_⟩
        · rw [hB, lineUnits_cons]
          simp
        · rw [hC]; rfl
        · intro h0
          rw [hA, hB] at h0
          simp at h0
/-- The `take_until` loop entered mid-line (the accumulator ends with a
proper nonempty prefix `part` of the current line `l = part ++ t`), with
room for one more unit (`read ≤ CS - ML`): the current line is completed
and the loop continues aligned. -/
theorem takeUntilLoop_partial (sep CS ML : Nat) (hCS : 2 * ML ≤ CS)
    (ltail done : List (List Nat)) (l part t : List Nat)
    (fuel read : Nat) (acc : List Nat)
    (hl : ∀ l' ∈ ltail, sep ∉ l' ∧ l'.length + 1 ≤ ML)
    (hlsep : sep ∉ l) (hlml : l.length + 1 ≤ ML)
    (hpart : part ≠ []) (hlpt : l = part ++ t)
    (hacc : acc = lineUnits sep done ++ part) (hread : read = acc.length)
    (hlim : read ≤ CS - ML)
    (hfuel : (t ++ sep :: lineUnits sep ltail).length < fuel) :
    ∃ out, takeUntilLoop sep CS fuel read acc (t ++ sep :: lineUnits sep ltail) =
        some out ∧
      ∃ da ra, out.1 = out.2.1.length ∧
        out.2.1 = lineUnits sep (done ++ l :: da) ∧ ltail = da ++ ra ∧
        out.2.2.ov.take out.2.2.op ++ out.2.2.stream = lineUnits sep ra ∧
        out.2.2.op = out.2.2.ov.length ∧ out.2.2.op ≤ ML ∧
        (out.1 = 0 → ra = []) := by
  cases fuel with
  | zero => exact absurd hfuel (Nat.not_lt_zero _)
  | succ f =>
    have htsep : sep ∉ t := fun hc => hlsep (hlpt ▸ List.mem_append_right part hc)
    have hpr : readUntilSplit sep (t ++ sep :: lineUnits sep ltail) =
        (t ++ [sep], lineUnits sep ltail) := readUntilSplit_line sep t _ htsep
    rw [takeUntilLoop_succ sep CS f read acc _ _ _ hpr]
    have hple : 1 ≤ part.length := by
      cases part with
      | nil => exact absurd rfl hpart
      | cons a b => simp
    have hlt : l.length = part.length + t.length := by
      rw [hlpt, List.length_append]
    have hoppl : (t ++ [sep]).length = t.length + 1 := by simp
    have hnex : ¬(CS ≤ read + (t ++ [sep]).length ∨ (t ++ [sep]).length = 0) := by
      rw [hoppl]
      intro hor
      rcases hor with h2 | h2
      · omega
      · omega
    rw [if_neg hnex]
    have hacc2 : acc ++ (t ++ [sep]) = lineUnits sep (done ++ [l]) := by
      rw [lineUnits_append, hacc, hlpt]
      simp [lineUnits]
    have hfuel2 : (lineUnits sep ltail).length < f := by
      rw [List.length_append, List.length_cons] at hfuel
      omega
    obtain ⟨out, hout, da, ra, hA, hB, hC, hD, hE, hF, hG⟩ :=
      takeUntilLoop_aligned sep CS ML hCS ltail (done ++ [l]) f
        (read + (t ++ [sep]).length) (acc ++ (t ++ [sep])) hl hacc2
        (by simp [hread]) hfuel2
    refine ⟨out, hout, da, ra, hA, ?_, hC, hD, hE, hF, hG⟩
    rw [hB, hacc2, ← lineUnits_append]
    congr 1
    simp

/-- `take_until` on a reader state whose pending bytes (consumed overflow
prefix plus stream) form whole `sep`-terminated lines: the returned chunk
is a concatenation of whole lines, the remaining pending bytes are the
rest of the lines, and a zero-byte read happens only with nothing left. -/
theorem takeUntil_lines (sep CS ML : Nat) (hCS : 2 * ML ≤ CS)
    (rem : List (List Nat)) (st : ReaderState)
    (hrem : ∀ l ∈ rem, sep ∉ l ∧ l.length + 1 ≤ ML)
    (hinv : st.ov.take st.op ++ st.stream = lineUnits sep rem)
    (hop1 : st.op ≤ st.ov.length) (hop2 : st.op ≤ ML) :
    ∃ read chunk st2, takeUntil sep CS ML st = some (read, chunk, st2) ∧
      ∃ da ra, read = chunk.length ∧ chunk = lineUnits sep da ∧
        rem = da ++ ra ∧
        st2.ov.take st2.op ++ st2.stream = lineUnits sep ra ∧
        st2.op = st2.ov.length ∧ st2.op ≤ ML ∧ (read = 0 → ra = []) := by
  have hg1 : ¬(st.ov.length < st.op ∨ CS < st.op) := by
    intro hor
    rcases hor with h | h
    · omega
    · omega
  have hg2 : ¬(CS - ML < st.op) := by omega
  have hdef : takeUntil sep CS ML st =
      if st.ov.length < st.op ∨ CS < st.op then none
      else if CS - ML < st.op then none
      else
        takeUntilLoop sep CS ((st.stream.drop (CS - ML - st.op)).length + 1)
          (st.op + (st.stream.take (CS - ML - st.op)).length)
          (st.ov.take st.op ++ st.stream.take (CS - ML - st.op))
          (st.stream.drop (CS - ML - st.op)) := rfl
  rw [hdef, if_neg hg1, if_neg hg2]
  have hsplit : (st.ov.take st.op ++ st.stream.take (CS - ML - st.op)) ++
      st.stream.drop (CS - ML - st.op) = lineUnits sep rem := by
    rw [List.append_assoc, List.take_append_drop]
    exact hinv
  have hovl : (st.ov.take st.op).length = st.op := by
    rw [List.length_take]; omega
  have hreadlen : st.op + (st.stream.take (CS - ML - st.op)).length =
      (st.ov.take st.op ++ st.stream.take (CS - ML - st.op)).length := by
    rw [List.length_append, hovl]
  have hlim : st.op + (st.stream.take (CS - ML - st.op)).length ≤ CS - ML := by
    have h1 : (st.stream.take (CS - ML - st.op)).length ≤ CS - ML - st.op := by
      rw [List.length_take]; omega
    omega
  rcases lineUnits_prefix_split sep rem _ _ hsplit with
    ⟨done, lrest, hrem2, hacc2, hs2⟩ |
    ⟨done, l, ltail, part, t, hrem2, hacc2, hpart, hlpt, hs2⟩
  · rw [hs2]
    obtain ⟨out, hout, da, ra, hA, hB, hC, hD, hE, hF, hG⟩ :=
      takeUntilLoop_aligned sep CS ML hCS lrest done
        ((lineUnits sep lrest).length + 1)
        (st.op + (st.stream.take (CS - ML - st.op)).length)
        (st.ov.take st.op ++ st.stream.take (CS - ML - st.op))
        (fun l' hl' => hrem l' (by rw [hrem2]; exact List.mem_append_right done hl'))
        hacc2 hreadlen (Nat.lt_succ_self _)
    refine ⟨out.1, out.2.1, out.2.2, hout, done ++ da, ra, hA, ?_, ?_, hD, hE, hF, hG⟩
    · rw [hB, hacc2, ← lineUnits_append]
    · rw [hrem2, hC, List.append_assoc]
  · rw [hs2]
    have hmem : l ∈ rem := by
      rw [hrem2]; exact List.mem_append_right done (List.mem_cons_self l ltail)
    obtain ⟨out, hout, da, ra, hA, hB, hC, hD, hE, hF, hG⟩ :=
      takeUntilLoop_partial sep CS ML hCS ltail done l part t
        ((t ++ sep :: lineUnits sep ltail).length + 1)
        (st.op + (st.stream.take (CS - ML - st.op)).length)
        (st.ov.take st.op ++ st.stream.take (CS - ML - st.op))
        (fun l' hl' => hrem l'
          (by rw [hrem2]; exact List.mem_append_right done (List.mem_cons_of_mem l hl')))
        (hrem l hmem).1 (hrem l hmem).2 hpart hlpt hacc2 hreadlen hlim
        (Nat.lt_succ_self _)
    refine ⟨out.1, out.2.1, out.2.2, hout, done ++ l :: da, ra, hA, hB, ?_, hD, hE, hF, hG⟩
    rw [hrem2, hC]
    simp

/-- One unfolding of the chunk iterator, phrased through the result of
`take_until`. -/
theorem chunksFuel_succ (sep CS ML f : Nat) (st st1 : ReaderState)
    (read : Nat) (chunk : List Nat)
    (hp : takeUntil sep CS ML st = some (read, chunk, st1)) :
    chunksFuel sep CS ML (f + 1) st =
      if read = 0 then some []
      else
        match chunksFuel sep CS ML f st1 with
        | none => none
        | some rest => some (chunk :: rest) := by
  show (match takeUntil sep CS ML st with
    | none => none
    | some (read, chunk, st1) =>
      if read = 0 then some []
      else
        match chunksFuel sep CS ML f st1 with
        | none => none
        | some rest => some (chunk :: rest)) = _
  rw [hp]

/-- Iterating the reader from a state whose pending bytes form whole
`sep`-terminated lines yields chunks that are nonempty concatenations of
whole lines, with their concatenation equal to the pending bytes. -/
theorem chunksFuel_lines (sep CS ML : Nat) (hCS : 2 * ML ≤ CS) :
    ∀ (fuel : Nat) (rem : List (List Nat)) (st : ReaderState),
      (∀ l ∈ rem, sep ∉ l ∧ l.length + 1 ≤ ML) →
      st.ov.take st.op ++ st.stream = lineUnits sep rem →
      st.op ≤ st.ov.length → st.op ≤ ML →
      st.op + st.stream.length + 2 ≤ fuel →
      ∃ out, chunksFuel sep CS ML fuel st = some out ∧
        out.flatten = lineUnits sep rem ∧
        ∀ c ∈ out, c ≠ [] ∧ c.getLast? = some sep := by
  intro fuel
  induction fuel with
  | zero => intro rem st _ _ _ _ hf; omega
  | succ f ih =>
    intro rem st hrem hinv hop1 hop2 hf
    obtain ⟨read, chunk, st1, hout1, da, ra, hA, hB, hC, hD, hE, hF, hG⟩ :=
      takeUntil_lines sep CS ML hCS rem st hrem hinv hop1 hop2
    by_cases hr0 : read = 0
    · have hchunk : chunk = [] :=
        List.eq_nil_of_length_eq_zero (by rw [← hA]; exact hr0)
      have hda : da = [] := lineUnits_eq_nil sep da (by rw [← hB]; exact hchunk)
      have hra := hG hr0
      have hrnil : rem = [] := by rw [hC, hda, hra]; rfl
      refine ⟨[], ?_, ?_, ?_⟩
      · rw [chunksFuel_succ sep CS ML f st st1 read chunk hout1, if_pos hr0]
      · rw [hrnil]; rfl
      · intro c hc; exact absurd hc (List.not_mem_nil c)
    · have hstlen : st1.op + st1.stream.length = (lineUnits sep ra).length := by
        have h1 : (st1.ov.take st1.op ++ st1.stream).length =
            (lineUnits sep ra).length := by rw [hD]
        rw [List.length_append, List.length_take] at h1
        omega
      have hremlen : st.op + st.stream.length = (lineUnits sep rem).length := by
        have h1 : (st.ov.take st.op ++ st.stream).length =
            (lineUnits sep rem).length := by rw [hinv]
        rw [List.length_append, List.length_take] at h1
        omega
      have hsum : (lineUnits sep rem).length =
          chunk.length + (lineUnits sep ra).length := by
        rw [hC, lineUnits_append, List.length_append, hB]
      have hf1 : st1.op + st1.stream.length + 2 ≤ f := by omega
      obtain ⟨rest, hrest, hflat, hends⟩ :=
        ih ra st1
          (fun l' hl' => hrem l' (by rw [hC]; exact List.mem_append_right da hl'))
          hD (Nat.le_of_eq hE) hF hf1
      refine ⟨chunk :: rest, ?_, ?_, ?_⟩
      · rw [chunksFuel_succ sep CS ML f st st1 read chunk hout1, if_neg hr0, hrest]
      · rw [List.flatten_cons, hflat, hB, hC, lineUnits_append]
      · intro c hc
        rcases List.mem_cons.mp hc with hc | hc
        · have hcne : c ≠ [] := by
            rw [hc]
            intro hcc
            exact hr0 (by rw [hA, hcc]; rfl)
          have hdane : da ≠ [] := by
            intro hdd
            exact hcne (by rw [hc, hB, hdd]; rfl)
          exact ⟨hcne, by rw [hc, hB]; exact lineUnits_getLast sep da hdane⟩
        · exact hends c hc

/-- C8 (amended): if every line together with its separator byte fits in
the overflow buffer (`l.length + 1 ≤ MAX_SENTENCE_LENGTH`) and
`2 * MAX_SENTENCE_LENGTH ≤ chunk_size` (true for the defaults 1024 and
65536*8), then iterating `FixedMemoryReader::take_until` yields chunks
whose concatenation equals the input and each of which ends at a
separator boundary (every chunk even ends with the separator, since the
input is fully line-terminated).  The claim's bound
`line length ≤ MAX_SENTENCE_LENGTH`, without the `+ 1` for the separator,
is not sufficient: see `c8_counterexample`. -/
theorem c8_chunks_line_aligned (sep CS ML : Nat) (ls : List (List Nat))
    (hls : ∀ l ∈ ls, sep ∉ l ∧ l.length + 1 ≤ ML) (hCS : 2 * ML ≤ CS) :
    ∃ out, readerChunks sep CS ML (lineUnits sep ls) = some out ∧
      out.flatten = lineUnits sep ls ∧
      ∀ c ∈ out, c ≠ [] ∧ c.getLast? = some sep := by
  exact chunksFuel_lines sep CS ML hCS ((lineUnits sep ls).length + 2) ls
    (initReader ML (lineUnits sep ls)) hls rfl (Nat.zero_le _) (Nat.zero_le _)
    (by show 0 + (lineUnits sep ls).length + 2 ≤ (lineUnits sep ls).length + 2
        omega)

/-- Witness for `c8_chunks_line_aligned` at a concrete instance: two
4-byte line units, chunk size 12, overflow size 5. -/
theorem c8_chunks_line_aligned_witness :
    (∀ l ∈ ([[97, 97, 97], [98, 98, 98]] : List (List Nat)),
      (10 : Nat) ∉ l ∧ l.length + 1 ≤ 5) ∧ 2 * 5 ≤ 12 ∧
    ∃ out, readerChunks 10 12 5 (lineUnits 10 [[97, 97, 97], [98, 98, 98]]) =
        some out ∧
      out.flatten = lineUnits 10 [[97, 97, 97], [98, 98, 98]] ∧
      ∀ c ∈ out, c ≠ [] ∧ c.getLast? = some 10 :=
  ⟨by decide, by decide,
    c8_chunks_line_aligned 10 12 5 [[97, 97, 97], [98, 98, 98]] (by decide) (by decide)⟩

/-- C8, counterexample to the claim as stated: with `chunk_size = 12` and
`MAX_SENTENCE_LENGTH = 5`, the input of three newline-terminated 5-byte
lines satisfies the claim's hypothesis (each line is at most
MAX_SENTENCE_LENGTH bytes), yet the reader returns a non-final chunk
`aaaaa\nb` that splits the second line: it does not end at a separator
boundary. -/
theorem c8_counterexample :
    (∀ l ∈ ([[97, 97, 97, 97, 97], [98, 98, 98, 98, 98], [99, 99, 99, 99, 99]] :
        List (List Nat)), (10 : Nat) ∉ l ∧ l.length ≤ 5) ∧
    readerChunks 10 12 5
        (lineUnits 10 [[97, 97, 97, 97, 97], [98, 98, 98, 98, 98], [99, 99, 99, 99, 99]]) =
      some [[97, 97, 97, 97, 97, 10, 98], [98, 98, 98, 98, 10, 99, 99, 99, 99, 99, 10]] ∧
    ¬∀ c ∈ ([[97, 97, 97, 97, 97, 10, 98],
        [98, 98, 98, 98, 10, 99, 99, 99, 99, 99, 10]] : List (List Nat)).dropLast,
      c.getLast? = some 10 := by
  decide

/-! ## C7: geometry of lines inside a shard file

The scanner locates a match range inside the (transformed) shard stream
and reconstructs the containing line from the raw shard file.  The lemmas
below show that `line_of_range` on a range lying inside one line unit
returns exactly that line (trimmed). -/

theorem length_le_lineUnits (sep : Nat) (ls : List (List Nat)) :
    ls.length ≤ (lineUnits sep ls).length := by
  induction ls with
  | nil => simp [lineUnits]
  | cons l rest ih =>
    rw [lineUnits_cons, List.length_cons, List.length_append, List.length_cons]
    omega

theorem mem_lineUnits (sep b : Nat) (ls : List (List Nat)) (h : b ∈ lineUnits sep ls) :
    b = sep ∨ ∃ l ∈ ls, b ∈ l := by
  induction ls with
  | nil => cases h
  | cons l rest ih =>
    rw [lineUnits_cons] at h
    rcases List.mem_append.mp h with h1 | h1
    · exact Or.inr ⟨l, List.mem_cons_self l rest, h1⟩
    · rcases List.mem_cons.mp h1 with h2 | h2
      · exact Or.inl h2
      · rcases ih h2 with h3 | ⟨l', hl', hb⟩
        · exact Or.inl h3
        · exact Or.inr ⟨l', List.mem_cons_of_mem l hl', hb⟩

/-- `read_line` on a stream starting with a newline-free segment followed
by a newline reads exactly through that newline. -/
theorem takeThrough_line (t rest : List Nat) (h : nlByte ∉ t) :
    takeThrough nlByte (t ++ nlByte :: rest) = t ++ [nlByte] := by
  induction t with
  | nil => simp [takeThrough]
  | cons b t ih =>
    have hb : b ≠ nlByte := fun hc => h (hc ▸ List.mem_cons_self b t)
    have ih2 := ih (fun hc => h (List.mem_cons_of_mem b hc))
    rw [List.cons_append, takeThrough, if_neg hb, ih2]
    rfl

/-- `str::trim_end` ignores the trailing newline of a raw line read. -/
theorem trimEnd_append_nl (l : List Nat) : trimEnd (l ++ [nlByte]) = trimEnd l := by
  rw [trimEnd, trimEnd, List.reverse_append]
  show (([nlByte].reverse ++ l.reverse).dropWhile isTrimByte).reverse = _
  rw [show ([nlByte] : List Nat).reverse = [nlByte] from rfl, List.cons_append,
    List.nil_append, List.dropWhile_cons]
  rw [if_pos (by decide)]

theorem lineLoop_succ (c : List Nat) (e f pos : Nat) (buf : List Nat) :
    lineLoop c e (f + 1) pos buf =
      if pos < e then
        lineLoop c e f (pos + (readLineFrom c pos).length) (readLineFrom c pos)
      else some buf := rfl

/-- The `line_of_range` loop entered at a line-unit boundary: it reads the
`mid` units one by one and finishes on the unit `lk` that contains the
byte range's end, returning that unit. -/
theorem lineLoop_aligned (lk tail : List Nat) (hlk : nlByte ∉ lk) (c : List Nat)
    (e : Nat) :
    ∀ (mid : List (List Nat)) (fuel p : Nat) (buf : List Nat),
      (∀ l ∈ mid, nlByte ∉ l) →
      c.drop p = lineUnits nlByte mid ++ (lk ++ nlByte :: tail) →
      p + (lineUnits nlByte mid).length < e →
      e ≤ p + (lineUnits nlByte mid).length + lk.length + 1 →
      mid.length + 2 ≤ fuel →
      lineLoop c e fuel p buf = some (lk ++ [nlByte]) := by
  intro mid
  induction mid with
  | nil =>
    intro fuel p buf hmid hdrop hpe hels hfuel
    obtain ⟨f, rfl⟩ : ∃ f, fuel = f + 2 := ⟨fuel - 2, by omega⟩
    have hzero : (lineUnits nlByte ([] : List (List Nat))).length = 0 := rfl
    have hdrop' : c.drop p = lk ++ nlByte :: tail := by
      rw [show lineUnits nlByte ([] : List (List Nat)) = [] from rfl,
        List.nil_append] at hdrop
      exact hdrop
    have hpe' : p < e := by omega
    have hpiece : readLineFrom c p = lk ++ [nlByte] := by
      rw [readLineFrom, hdrop']
      exact takeThrough_line lk tail hlk
    have hstop : ¬(p + (lk ++ [nlByte]).length < e) := by
      rw [List.length_append, List.length_singleton]
      omega
    rw [show f + 2 = (f + 1) + 1 from rfl, lineLoop_succ, if_pos hpe', hpiece,
      lineLoop_succ, if_neg hstop]
  | cons m mid ih =>
    intro fuel p buf hmid hdrop hpe hels hfuel
    obtain ⟨f, rfl⟩ : ∃ f, fuel = f + 1 := ⟨fuel - 1, by omega⟩
    have hm : nlByte ∉ m := hmid m (List.mem_cons_self m mid)
    have hlen2 : (lineUnits nlByte (m :: mid)).length =
        m.length + 1 + (lineUnits nlByte mid).length := by
      rw [lineUnits_cons, List.length_append, List.length_cons]
      omega
    have hdrop1 : c.drop p =
        m ++ nlByte :: (lineUnits nlByte mid ++ (lk ++ nlByte :: tail)) := by
      rw [hdrop, lineUnits_cons]
      simp
    have hpe1 : p < e := by omega
    have hpiece : readLineFrom c p = m ++ [nlByte] := by
      rw [readLineFrom, hdrop1]
      exact takeThrough_line m _ hm
    have hlen1 : (m ++ [nlByte]).length = m.length + 1 := by
      rw [List.length_append, List.length_singleton]
    rw [lineLoop_succ, if_pos hpe1, hpiece]
    apply ih f (p + (m ++ [nlByte]).length) (m ++ [nlByte])
      (fun l hl => hmid l (List.mem_cons_of_mem m hl))
    · have h2 : c.drop (p + (m ++ [nlByte]).length) =
          (c.drop p).drop ((m ++ [nlByte]).length) := by
        rw [List.drop_drop]
      have h3 : m ++ nlByte :: (lineUnits nlByte mid ++ (lk ++ nlByte :: tail)) =
          (m ++ [nlByte]) ++ (lineUnits nlByte mid ++ (lk ++ nlByte :: tail)) := by
        simp
      rw [h2, hdrop1, h3, List.drop_left]
    · omega
    · omega
    · rw [List.length_cons] at hfuel
      omega

/-- `LinesScanner::line_of_range` on a byte range `[s, e)` lying inside
the line unit `lk ++ [\n]` (with at most `MAX_LINE_LENGTH` bytes of line
body) returns exactly that line, trimmed, failing only when the trimmed
line is empty. -/
theorem lineOfRange_in_unit (pre : List (List Nat)) (lk tail : List Nat) (s e : Nat)
    (hpre : ∀ l ∈ pre, nlByte ∉ l) (hlk : nlByte ∉ lk)
    (hlk2 : lk.length ≤ maxLineLength)
    (hs : (lineUnits nlByte pre).length ≤ s) (hse : s < e)
    (he : e ≤ (lineUnits nlByte pre).length + lk.length + 1) :
    lineOfRange (lineUnits nlByte pre ++ (lk ++ nlByte :: tail)) s e =
      if trimEnd lk = [] then none else some (trimEnd lk) := by
  have hpos0 : s - maxLineLength ≤ (lineUnits nlByte pre).length := by omega
  have hloop : lineLoop (lineUnits nlByte pre ++ (lk ++ nlByte :: tail)) e (e + 1)
      (s - maxLineLength) [] = some (lk ++ [nlByte]) := by
    have hsplit0 := List.take_append_drop (s - maxLineLength) (lineUnits nlByte pre)
    rcases lineUnits_prefix_split nlByte pre _ _ hsplit0 with
      ⟨done, lrest, hrem2, hacc2, hs2⟩ |
      ⟨done, lcut, ltail, part, t, hrem2, hacc2, hpart, hlpt, hs2⟩
    · have hlena : (lineUnits nlByte done).length +
          (lineUnits nlByte lrest).length = (lineUnits nlByte pre).length := by
        rw [hrem2, lineUnits_append, List.length_append]
      have hlenb : (lineUnits nlByte done).length = s - maxLineLength := by
        rw [← hacc2, List.length_take]
        omega
      have hlenc : lrest.length ≤ (lineUnits nlByte lrest).length :=
        length_le_lineUnits nlByte lrest
      apply lineLoop_aligned lk tail hlk _ e lrest (e + 1) (s - maxLineLength) []
        (fun l hl => hpre l (by rw [hrem2]; exact List.mem_append_right done hl))
      · rw [List.drop_append_of_le_length hpos0, hs2]
      · omega
      · omega
      · omega
    · have hlcut : nlByte ∉ lcut :=
        hpre lcut (by rw [hrem2]; exact List.mem_append_right done (List.mem_cons_self _ _))
      have htnl : nlByte ∉ t := fun hc => hlcut (hlpt ▸ List.mem_append_right part hc)
      have hlena : (lineUnits nlByte done).length + (lcut.length + 1) +
          (lineUnits nlByte ltail).length = (lineUnits nlByte pre).length := by
        rw [hrem2, lineUnits_append, List.length_append, lineUnits_cons,
          List.length_append, List.length_cons]
        omega
      have hlenb : (lineUnits nlByte done).length + part.length = s - maxLineLength := by
        have h := congrArg List.length hacc2
        rw [List.length_take, List.length_append] at h
        omega
      have hlenc : ltail.length ≤ (lineUnits nlByte ltail).length :=
        length_le_lineUnits nlByte ltail
      have hlend : lcut.length = part.length + t.length := by
        rw [hlpt, List.length_append]
      have hple : 1 ≤ part.length := by
        cases part with
        | nil => exact absurd rfl hpart
        | cons a b => simp
      have hpe0 : s - maxLineLength < e := by omega
      have hdropc : (lineUnits nlByte pre ++ (lk ++ nlByte :: tail)).drop
          (s - maxLineLength) =
          t ++ nlByte :: (lineUnits nlByte ltail ++ (lk ++ nlByte :: tail)) := by
        rw [List.drop_append_of_le_length hpos0, hs2]
        simp
      have hpiece : readLineFrom (lineUnits nlByte pre ++ (lk ++ nlByte :: tail))
          (s - maxLineLength) = t ++ [nlByte] := by
        rw [readLineFrom, hdropc]
        exact takeThrough_line t _ htnl
      have hlent : (t ++ [nlByte]).length = t.length + 1 := by
        rw [List.length_append, List.length_singleton]
      rw [lineLoop_succ, if_pos hpe0, hpiece]
      apply lineLoop_aligned lk tail hlk _ e ltail e
        (s - maxLineLength + (t ++ [nlByte]).length) (t ++ [nlByte])
        (fun l hl => hpre l
          (by rw [hrem2]; exact List.mem_append_right done (List.mem_cons_of_mem lcut hl)))
      · have h2 : (lineUnits nlByte pre ++ (lk ++ nlByte :: tail)).drop
            (s - maxLineLength + (t ++ [nlByte]).length) =
            ((lineUnits nlByte pre ++ (lk ++ nlByte :: tail)).drop
              (s - maxLineLength)).drop ((t ++ [nlByte]).length) := by
          rw [List.drop_drop]
        have h3 : t ++ nlByte :: (lineUnits nlByte ltail ++ (lk ++ nlByte :: tail)) =
            (t ++ [nlByte]) ++ (lineUnits nlByte ltail ++ (lk ++ nlByte :: tail)) := by
          simp
        rw [h2, hdropc, h3, List.drop_left]
      · omega
      · omega
      · omega
  have hdef : lineOfRange (lineUnits nlByte pre ++ (lk ++ nlByte :: tail)) s e =
      match lineLoop (lineUnits nlByte pre ++ (lk ++ nlByte :: tail)) e (e + 1)
          (s - maxLineLength) [] with
      | none => none
      | some buf => if trimEnd buf = [] then none else some (trimEnd buf) := rfl
  rw [hdef, hloop]
  show (if trimEnd (lk ++ [nlByte]) = [] then none
    else some (trimEnd (lk ++ [nlByte]))) = _
  rw [trimEnd_append_nl]

/-! ## C7: coverage of occurrences by Standard-semantics matches -/

theorem findOccFrom_mem_sound {α : Type} [DecidableEq α] (pats : List (List α))
    (L : Nat) (hay : List α) :
    ∀ f i j, findOccFrom pats L hay f i = some j →
      i ≤ j ∧ matchesAt pats L hay j = true := by
  intro f
  induction f with
  | zero => intro i j h; cases h
  | succ f ih =>
    intro i j h
    rw [findOccFrom] at h
    by_cases h1 : i + L > hay.length
    · rw [if_pos h1] at h; cases h
    · rw [if_neg h1] at h
      by_cases h2 : matchesAt pats L hay i = true
      · rw [if_pos h2] at h
        cases h
        exact ⟨Nat.le_refl i, h2⟩
      · rw [if_neg h2] at h
        obtain ⟨ha, hb⟩ := ih (i + 1) j h
        exact ⟨by omega, hb⟩

theorem acFindAux_mem_sound {α : Type} [DecidableEq α] (pats : List (List α))
    (L : Nat) (hay : List α) :
    ∀ f p r, r ∈ acFindAux pats L hay f p →
      p ≤ r.1 ∧ r.2 = r.1 + L ∧ matchesAt pats L hay r.1 = true := by
  intro f
  induction f with
  | zero => intro p r h; cases h
  | succ f ih =>
    intro p r h
    rw [acFindAux] at h
    cases hf : findOccFrom pats L hay (hay.length + 1) p with
    | none => rw [hf] at h; cases h
    | some i =>
      rw [hf] at h
      obtain ⟨ha, hb⟩ := findOccFrom_mem_sound pats L hay _ _ _ hf
      rcases List.mem_cons.mp h with h1 | h1
      · rw [h1]
        exact ⟨ha, rfl, hb⟩
      · obtain ⟨hc, hd, he⟩ := ih (i + L) r h1
        exact ⟨by omega, hd, he⟩

theorem acFind_mem_sound {α : Type} [DecidableEq α] (pats : List (List α))
    (L : Nat) (hay : List α) (r : Nat × Nat) (hr : r ∈ acFind pats L hay) :
    r.2 = r.1 + L ∧ matchesAt pats L hay r.1 = true :=
  ⟨(acFindAux_mem_sound pats L hay _ _ r hr).2.1,
    (acFindAux_mem_sound pats L hay _ _ r hr).2.2⟩

/-- `find_iter` completeness of the underlying scan: if a pattern occurs
at `i` at or after the scan start, the scan finds an occurrence at or
before `i`. -/
theorem findOccFrom_some_of {α : Type} [DecidableEq α] (pats : List (List α))
    (L : Nat) (hay : List α) (i : Nat) (hi : matchesAt pats L hay i = true) :
    ∀ f start, start ≤ i → i + 1 - start ≤ f →
      ∃ j, findOccFrom pats L hay f start = some j ∧ start ≤ j ∧ j ≤ i ∧
        matchesAt pats L hay j = true := by
  have hbound : i + L ≤ hay.length := by
    rw [matchesAt, decide_eq_true_iff] at hi
    exact hi.1
  intro f
  induction f with
  | zero => intro start h1 h2; omega
  | succ f ih =>
    intro start h1 h2
    rw [findOccFrom]
    have hno : ¬(start + L > hay.length) := by omega
    rw [if_neg hno]
    by_cases hm : matchesAt pats L hay start = true
    · rw [if_pos hm]
      exact ⟨start, rfl, Nat.le_refl _, h1, hm⟩
    · rw [if_neg hm]
      have hne : start ≠ i := fun hc => hm (hc ▸ hi)
      obtain ⟨j, hj, hj1, hj2, hj3⟩ := ih (start + 1) (by omega) (by omega)
      exact ⟨j, hj, by omega, hj2, hj3⟩

/-- Every occurrence of a pattern is overlapped by some reported
Standard-semantics match. -/
theorem acFindAux_covers {α : Type} [DecidableEq α] (pats : List (List α))
    (L : Nat) (hay : List α) (hL : 1 ≤ L) (i : Nat)
    (hi : matchesAt pats L hay i = true) :
    ∀ f p, p ≤ i → hay.length + 1 - p ≤ f →
      ∃ r ∈ acFindAux pats L hay f p, r.1 ≤ i ∧ i < r.2 := by
  have hbound : i + L ≤ hay.length := by
    rw [matchesAt, decide_eq_true_iff] at hi
    exact hi.1
  intro f
  induction f with
  | zero => intro p h1 h2; omega
  | succ f ih =>
    intro p h1 h2
    obtain ⟨j, hj, hj1, hj2, hj3⟩ :=
      findOccFrom_some_of pats L hay i hi (hay.length + 1) p h1 (by omega)
    rw [acFindAux, hj]
    show ∃ r ∈ (j, j + L) :: acFindAux pats L hay f (j + L), r.1 ≤ i ∧ i < r.2
    by_cases hcase : i < j + L
    · exact ⟨(j, j + L), List.mem_cons_self _ _, hj2, hcase⟩
    · have hj4 : j + L ≤ i := by omega
      obtain ⟨r, hr, hr2⟩ := ih (j + L) hj4 (by omega)
      exact ⟨r, List.mem_cons_of_mem _ hr, hr2⟩

theorem acFind_covers {α : Type} [DecidableEq α] (pats : List (List α)) (L : Nat)
    (hay : List α) (hL : 1 ≤ L) (i : Nat) (hi : matchesAt pats L hay i = true) :
    ∃ r ∈ acFind pats L hay, r.1 ≤ i ∧ i < r.2 :=
  acFindAux_covers pats L hay hL i hi (hay.length + 1) 0 (Nat.zero_le i) (by omega)

/-- An occurrence of the transformed query transfers along a further
byte-wise transform of both the query and the stream. -/
theorem matchesAt_map (g : Nat → Nat) (p hay : List Nat) (i : Nat)
    (h : matchesAt [p] p.length hay i = true) :
    matchesAt [p.map g] (p.map g).length (hay.map g) i = true := by
  rw [matchesAt, decide_eq_true_iff] at h
  obtain ⟨h1, h2⟩ := h
  have h2' : (hay.drop i).take p.length = p := List.mem_singleton.mp h2
  rw [matchesAt, decide_eq_true_iff]
  constructor
  · rw [List.length_map, List.length_map]; exact h1
  · have h3 : ((hay.map g).drop i).take p.length = ((hay.drop i).take p.length).map g := by
      rw [← List.map_drop, ← List.map_take]
    rw [List.length_map, h3, h2']
    exact List.mem_singleton.mpr rfl

/-- The raw bytes under a matched range of the transformed stream are all
non-newline, provided the transform reflects newlines and query and
stream are ASCII. -/
theorem slice_nlfree (g : Nat → Nat) (q raw : List Nat) (i : Nat)
    (hga : ∀ b, b < 128 → (g b = nlByte ↔ b = nlByte))
    (hraw : ∀ b ∈ raw, b < 128) (hqa : ∀ b ∈ q, b < 128) (hqnl : nlByte ∉ q)
    (hslice : ((raw.map g).drop i).take (q.map g).length = q.map g) :
    ∀ m b, i ≤ m → m < i + q.length → raw[m]? = some b → b ≠ nlByte := by
  intro m b hm1 hm2 hsome hbnl
  subst hbnl
  have h1 : (raw.map g)[m]? = some (g nlByte) := by
    rw [List.getElem?_map, hsome]
    rfl
  have ho : m - i < (q.map g).length := by
    rw [List.length_map]
    omega
  have h2 : (q.map g)[m - i]? = some (g nlByte) :=
    calc (q.map g)[m - i]?
        = (((raw.map g).drop i).take (q.map g).length)[m - i]? := by rw [hslice]
      _ = ((raw.map g).drop i)[m - i]? := by rw [List.getElem?_take, if_pos ho]
      _ = (raw.map g)[i + (m - i)]? := List.getElem?_drop (raw.map g) i (m - i)
      _ = some (g nlByte) := by rw [show i + (m - i) = m by omega]; exact h1
  have hgnl : g nlByte = nlByte := (hga nlByte (by decide)).mpr rfl
  have h3 : g nlByte ∈ q.map g := by
    have := List.getElem?_mem h2
    exact this
  rw [hgnl] at h3
  obtain ⟨a, ha, hga2⟩ := List.mem_map.mp h3
  have ha2 : a = nlByte := (hga a (hqa a ha)).mp hga2
  exact hqnl (ha2 ▸ ha)

theorem lineUnits_getElem_shift (u : List Nat) (rest : List (List Nat)) (m : Nat) :
    (lineUnits nlByte (u :: rest))[m + (u.length + 1)]? =
      (lineUnits nlByte rest)[m]? := by
  have hl : (u ++ [nlByte]).length = u.length + 1 := by
    rw [List.length_append, List.length_singleton]
  rw [lineUnits_cons, show u ++ nlByte :: lineUnits nlByte rest =
    (u ++ [nlByte]) ++ lineUnits nlByte rest by simp]
  rw [List.getElem?_append_right (by rw [hl]; omega)]
  rw [hl]
  congr 1
  omega

/-- A newline-free byte range of a line file lies inside a single line
unit. -/
theorem range_in_unit :
    ∀ (ls : List (List Nat)) (j L : Nat), (∀ l ∈ ls, nlByte ∉ l) → 1 ≤ L →
      j + L ≤ (lineUnits nlByte ls).length →
      (∀ m b, j ≤ m → m < j + L → (lineUnits nlByte ls)[m]? = some b → b ≠ nlByte) →
      ∃ pre lk post, ls = pre ++ lk :: post ∧
        (lineUnits nlByte pre).length ≤ j ∧
        j + L ≤ (lineUnits nlByte pre).length + lk.length
  | [], j, L, _, hL, hlen, _ => by
    rw [show lineUnits nlByte [] = [] from rfl] at hlen
    simp at hlen
    omega
  | u :: rest, j, L, hnl, hL, hlen, hfree => by
    have hu : nlByte ∉ u := hnl u (List.mem_cons_self u rest)
    have hcons : lineUnits nlByte (u :: rest) = u ++ nlByte :: lineUnits nlByte rest :=
      lineUnits_cons _ _ _
    by_cases h1 : j + L ≤ u.length
    · refine ⟨[], u, rest, rfl, ?_, ?_⟩
      · show (lineUnits nlByte []).length ≤ j
        rw [show lineUnits nlByte [] = [] from rfl]
        exact Nat.zero_le j
      · show j + L ≤ (lineUnits nlByte []).length + u.length
        rw [show lineUnits nlByte [] = [] from rfl]
        simpa using h1
    · by_cases h2 : j ≤ u.length
      · -- the newline terminating the first unit falls inside the range
        exfalso
        have hnlpos : (lineUnits nlByte (u :: rest))[u.length]? = some nlByte := by
          rw [hcons, List.getElem?_append_right (Nat.le_refl u.length)]
          simp
        exact hfree u.length nlByte h2 (by omega) hnlpos rfl
      · have h3 : u.length + 1 ≤ j := by omega
        have hlen2 : (lineUnits nlByte (u :: rest)).length =
            u.length + 1 + (lineUnits nlByte rest).length := by
          rw [hcons, List.length_append, List.length_cons]
          omega
        obtain ⟨pre, lk, post, hsplit, hb1, hb2⟩ :=
          range_in_unit rest (j - (u.length + 1)) L
            (fun l hl => hnl l (List.mem_cons_of_mem u hl)) hL (by omega)
            (fun m b hm1 hm2 hsome => hfree (m + (u.length + 1)) b (by omega) (by omega)
              (by rw [lineUnits_getElem_shift]; exact hsome))
        have hlen3 : (lineUnits nlByte (u :: pre)).length =
            u.length + 1 + (lineUnits nlByte pre).length := by
          rw [lineUnits_cons, List.length_append, List.length_cons]
          omega
        refine ⟨u :: pre, lk, post, by rw [hsplit]; rfl, ?_, ?_⟩
        · omega
        · omega

/-- Two line-unit decompositions whose bodies both contain the byte
position `i` are the same decomposition. -/
theorem unit_decomp_unique :
    ∀ (pre1 : List (List Nat)) (lk1 : List Nat) (post1 : List (List Nat))
      (pre2 : List (List Nat)) (lk2 : List Nat) (post2 : List (List Nat)) (i : Nat),
      pre1 ++ lk1 :: post1 = pre2 ++ lk2 :: post2 →
      (lineUnits nlByte pre1).length ≤ i →
      i < (lineUnits nlByte pre1).length + lk1.length →
      (lineUnits nlByte pre2).length ≤ i →
      i < (lineUnits nlByte pre2).length + lk2.length →
      pre1 = pre2 ∧ lk1 = lk2
  | [], lk1, post1, [], lk2, post2, i, heq, _, _, _, _ => by
    simp at heq
    exact ⟨rfl, heq.1⟩
  | [], lk1, post1, p2 :: pre2, lk2, post2, i, heq, h1, h2, h3, h4 => by
    exfalso
    simp at heq
    have hz : (lineUnits nlByte ([] : List (List Nat))).length = 0 := rfl
    have hlen : (lineUnits nlByte (p2 :: pre2)).length =
        p2.length + 1 + (lineUnits nlByte pre2).length := by
      rw [lineUnits_cons, List.length_append, List.length_cons]
      omega
    have hpl : lk1.length = p2.length := by rw [heq.1]
    rw [hz] at h2
    omega
  | p1 :: pre1, lk1, post1, [], lk2, post2, i, heq, h1, h2, h3, h4 => by
    exfalso
    simp at heq
    have hz : (lineUnits nlByte ([] : List (List Nat))).length = 0 := rfl
    have hlen : (lineUnits nlByte (p1 :: pre1)).length =
        p1.length + 1 + (lineUnits nlByte pre1).length := by
      rw [lineUnits_cons, List.length_append, List.length_cons]
      omega
    have hpl : lk2.length = p1.length := by rw [heq.1]
    rw [hz] at h4
    omega
  | p1 :: pre1, lk1, post1, p2 :: pre2, lk2, post2, i, heq, h1, h2, h3, h4 => by
    simp at heq
    have hpl : p1.length = p2.length := by rw [heq.1]
    have hlen1 : (lineUnits nlByte (p1 :: pre1)).length =
        p1.length + 1 + (lineUnits nlByte pre1).length := by
      rw [lineUnits_cons, List.length_append, List.length_cons]
      omega
    have hlen2 : (lineUnits nlByte (p2 :: pre2)).length =
        p2.length + 1 + (lineUnits nlByte pre2).length := by
      rw [lineUnits_cons, List.length_append, List.length_cons]
      omega
    obtain ⟨ha, hb⟩ := unit_decomp_unique pre1 lk1 post1 pre2 lk2 post2
      (i - (p1.length + 1)) heq.2 (by omega) (by omega) (by omega) (by omega)
    exact ⟨by rw [heq.1, ha], hb⟩

/-- ASCII bounds for a line file with ASCII lines. -/
theorem lineUnits_ascii (ls : List (List Nat))
    (h : ∀ l ∈ ls, ∀ b ∈ l, b < 128) :
    ∀ b ∈ lineUnits nlByte ls, b < 128 := by
  intro b hb
  rcases mem_lineUnits nlByte b ls hb with h1 | ⟨l, hl, hbl⟩
  · rw [h1]; decide
  · exact h l hl b hbl

/-- Matched lines are monotone along a byte-wise refinement of the stream
and query transform: every line reported for the transform `gA` is also
reported for `gB` when `gB` factors through `gA` byte-wise on ASCII and
both transforms preserve and reflect the newline byte. -/
theorem scanLines_mono (ls : List (List Nat)) (q : List Nat) (gA gB hM : Nat → Nat)
    (hWF : ∀ l ∈ ls, nlByte ∉ l ∧ l.length ≤ maxLineLength ∧ ∀ b ∈ l, b < 128)
    (hq1 : q ≠ []) (hqnl : nlByte ∉ q) (hqa : ∀ b ∈ q, b < 128)
    (hgA : ∀ b, b < 128 → (gA b = nlByte ↔ b = nlByte))
    (hgB : ∀ b, b < 128 → (gB b = nlByte ↔ b = nlByte))
    (hcomp : ∀ b, b < 128 → gB b = hM (gA b)) :
    ∀ x ∈ (acFind [q.map gA] (q.map gA).length
        ((lineUnits nlByte ls).map gA)).filterMap
        (fun r => lineOfRange (lineUnits nlByte ls) r.1 r.2),
      x ∈ (acFind [q.map gB] (q.map gB).length
        ((lineUnits nlByte ls).map gB)).filterMap
        (fun r => lineOfRange (lineUnits nlByte ls) r.1 r.2) := by
  intro x hx
  rw [List.mem_filterMap] at hx
  obtain ⟨rA, hrAmem, hrAline⟩ := hx
  obtain ⟨hA2, hA3⟩ := acFind_mem_sound [q.map gA] (q.map gA).length
    ((lineUnits nlByte ls).map gA) rA hrAmem
  have hA3' := hA3
  have hLA : (q.map gA).length = q.length := List.length_map _ _
  rw [hLA] at hA2
  have hq0 : 1 ≤ q.length := by
    cases q with
    | nil => exact absurd rfl hq1
    | cons a b => simp
  have hraw_ascii : ∀ b ∈ lineUnits nlByte ls, b < 128 :=
    lineUnits_ascii ls (fun l hl => (hWF l hl).2.2)
  rw [matchesAt, decide_eq_true_iff] at hA3
  obtain ⟨hA4, hA5⟩ := hA3
  have hA5' : (((lineUnits nlByte ls).map gA).drop rA.1).take (q.map gA).length
      = q.map gA := List.mem_singleton.mp hA5
  rw [List.length_map, List.length_map] at hA4
  obtain ⟨preA, lkA, postA, hsplitA, hA6, hA7⟩ :=
    range_in_unit ls rA.1 q.length (fun l hl => (hWF l hl).1) hq0 hA4
      (fun m b hm1 hm2 hsome => slice_nlfree gA q (lineUnits nlByte ls) rA.1 hgA
        hraw_ascii hqa hqnl hA5' m b hm1 hm2 hsome)
  have hlkA_mem : lkA ∈ ls := by
    rw [hsplitA]
    exact List.mem_append_right preA (List.mem_cons_self _ _)
  have hcontent : lineUnits nlByte ls =
      lineUnits nlByte preA ++ (lkA ++ nlByte :: lineUnits nlByte postA) := by
    rw [hsplitA, lineUnits_append, lineUnits_cons]
  have hlineA : lineOfRange (lineUnits nlByte ls) rA.1 rA.2 =
      if trimEnd lkA = [] then none else some (trimEnd lkA) := by
    conv_lhs => rw [hcontent]
    exact lineOfRange_in_unit preA lkA (lineUnits nlByte postA) rA.1 rA.2
      (fun l hl => (hWF l (by rw [hsplitA]; exact List.mem_append_left _ hl)).1)
      (hWF lkA hlkA_mem).1 (hWF lkA hlkA_mem).2.1 hA6
      (by omega) (by omega)
  rw [hlineA] at hrAline
  by_cases htriv : trimEnd lkA = []
  · rw [if_pos htriv] at hrAline
    cases hrAline
  · rw [if_neg htriv] at hrAline
    have hx_eq : x = trimEnd lkA := (Option.some.inj hrAline).symm
    have hrawB : (lineUnits nlByte ls).map gB =
        ((lineUnits nlByte ls).map gA).map hM := by
      rw [List.map_map]
      exact List.map_congr_left (fun b hb => hcomp b (hraw_ascii b hb))
    have hqB : q.map gB = (q.map gA).map hM := by
      rw [List.map_map]
      exact List.map_congr_left (fun b hb => hcomp b (hqa b hb))
    have hmB : matchesAt [q.map gB] (q.map gB).length
        ((lineUnits nlByte ls).map gB) rA.1 = true := by
      rw [hrawB, hqB]
      exact matchesAt_map hM (q.map gA) ((lineUnits nlByte ls).map gA) rA.1 hA3'
    obtain ⟨rB, hrBmem, hrB1, hrB2⟩ := acFind_covers [q.map gB] (q.map gB).length
      ((lineUnits nlByte ls).map gB) (by rw [List.length_map]; omega) rA.1 hmB
    obtain ⟨hB2, hB3⟩ := acFind_mem_sound [q.map gB] (q.map gB).length
      ((lineUnits nlByte ls).map gB) rB hrBmem
    have hLB : (q.map gB).length = q.length := List.length_map _ _
    rw [hLB] at hB2
    rw [matchesAt, decide_eq_true_iff] at hB3
    obtain ⟨hB4, hB5⟩ := hB3
    have hB5' : (((lineUnits nlByte ls).map gB).drop rB.1).take (q.map gB).length
        = q.map gB := List.mem_singleton.mp hB5
    rw [List.length_map, List.length_map] at hB4
    obtain ⟨preB, lkB, postB, hsplitB, hB6, hB7⟩ :=
      range_in_unit ls rB.1 q.length (fun l hl => (hWF l hl).1) hq0 hB4
        (fun m b hm1 hm2 hsome => slice_nlfree gB q (lineUnits nlByte ls) rB.1 hgB
          hraw_ascii hqa hqnl hB5' m b hm1 hm2 hsome)
    have huniq : preA = preB ∧ lkA = lkB := by
      apply unit_decomp_unique preA lkA postA preB lkB postB rA.1
        (by rw [← hsplitA, ← hsplitB])
      · exact hA6
      · omega
      · omega
      · omega
    have hlkB_mem : lkB ∈ ls := by
      rw [hsplitB]
      exact List.mem_append_right preB (List.mem_cons_self _ _)
    have hcontentB : lineUnits nlByte ls =
        lineUnits nlByte preB ++ (lkB ++ nlByte :: lineUnits nlByte postB) := by
      rw [hsplitB, lineUnits_append, lineUnits_cons]
    have hlineB : lineOfRange (lineUnits nlByte ls) rB.1 rB.2 =
        if trimEnd lkB = [] then none else some (trimEnd lkB) := by
      conv_lhs => rw [hcontentB]
      exact lineOfRange_in_unit preB lkB (lineUnits nlByte postB) rB.1 rB.2
        (fun l hl => (hWF l (by rw [hsplitB]; exact List.mem_append_left _ hl)).1)
        (hWF lkB hlkB_mem).1 (hWF lkB hlkB_mem).2.1 hB6
        (by omega) (by omega)
    rw [List.mem_filterMap]
    refine ⟨rB, hrBmem, ?_⟩
    rw [hlineB, ← huniq.2, if_neg htriv, hx_eq]

theorem lowerByte_preserves_nl :
    ∀ b : Nat, b < 128 → (lowerByte b = nlByte ↔ b = nlByte) := by decide

theorem fuzzyLowByte_preserves_nl :
    ∀ b : Nat, b < 128 → (fuzzyLowByte b = nlByte ↔ b = nlByte) := by decide

theorem fuzzyLowByte_lowerByte :
    ∀ b : Nat, b < 128 → fuzzyLowByte b = fuzzyLowByte (lowerByte b) := by decide

/-- Per-shard inclusion of Strict matches in CaseInsensitive matches. -/
theorem scanShard_strict_sub_ci (ls : List (List Nat)) (q : List Nat)
    (hWF : ∀ l ∈ ls, nlByte ∉ l ∧ l.length ≤ maxLineLength ∧ ∀ b ∈ l, b < 128)
    (hq1 : q ≠ []) (hqnl : nlByte ∉ q) (hqa : ∀ b ∈ q, b < 128) :
    ∀ x ∈ scanShard .strict q (lineUnits nlByte ls),
      x ∈ scanShard .caseInsensitive q (lineUnits nlByte ls) := by
  intro x hx
  have hx' : x ∈ (acFind [q.map id] (q.map id).length
      ((lineUnits nlByte ls).map id)).filterMap
      (fun r => lineOfRange (lineUnits nlByte ls) r.1 r.2) := by
    rw [List.map_id, List.map_id]
    exact hx
  exact scanLines_mono ls q id lowerByte lowerByte hWF hq1 hqnl hqa
    (fun b _ => Iff.rfl) lowerByte_preserves_nl (fun b _ => rfl) x hx'

/-- Per-shard inclusion of CaseInsensitive matches in Fuzzy matches. -/
theorem scanShard_ci_sub_fuzzy (ls : List (List Nat)) (q : List Nat)
    (hWF : ∀ l ∈ ls, nlByte ∉ l ∧ l.length ≤ maxLineLength ∧ ∀ b ∈ l, b < 128)
    (hq1 : q ≠ []) (hqnl : nlByte ∉ q) (hqa : ∀ b ∈ q, b < 128) :
    ∀ x ∈ scanShard .caseInsensitive q (lineUnits nlByte ls),
      x ∈ scanShard .fuzzy q (lineUnits nlByte ls) := by
  intro x hx
  have hx' : x ∈ (acFind [q.map lowerByte] (q.map lowerByte).length
      ((lineUnits nlByte ls).map lowerByte)).filterMap
      (fun r => lineOfRange (lineUnits nlByte ls) r.1 r.2) := hx
  have hres := scanLines_mono ls q lowerByte fuzzyLowByte fuzzyLowByte hWF hq1
    hqnl hqa lowerByte_preserves_nl fuzzyLowByte_preserves_nl
    fuzzyLowByte_lowerByte x hx'
  have hfq : fuzzyBytes q = q.map fuzzyLowByte := fuzzyBytes_ascii q hqa
  have hfc : fuzzyBytes (lineUnits nlByte ls) =
      (lineUnits nlByte ls).map fuzzyLowByte :=
    fuzzyBytes_ascii _ (lineUnits_ascii ls (fun l hl => (hWF l hl).2.2))
  simp only [scanShard, transformQuery, transformStream]
  rw [hfq, hfc]
  exact hres

theorem chunkListAux_sub {α : Type} :
    ∀ (f c : Nat) (l ch : List α), ch ∈ chunkListAux f c l → ∀ a ∈ ch, a ∈ l := by
  intro f
  induction f with
  | zero =>
    intro c l ch h
    cases l with
    | nil =>
      rw [show chunkListAux 0 c ([] : List α) = [] from rfl] at h
      cases h
    | cons b l =>
      rw [show chunkListAux 0 c (b :: l) = [] from rfl] at h
      cases h
  | succ f ih =>
    intro c l ch h
    cases l with
    | nil =>
      rw [show chunkListAux (f + 1) c ([] : List α) = [] from rfl] at h
      cases h
    | cons b l =>
      rw [show chunkListAux (f + 1) c (b :: l) =
        (b :: l).take c :: chunkListAux f c ((b :: l).drop c) from rfl] at h
      rcases List.mem_cons.mp h with h1 | h1
      · intro a ha
        rw [h1] at ha
        exact List.take_subset _ _ ha
      · intro a ha
        exact List.drop_subset _ _ (ih c ((b :: l).drop c) ch h1 a ha)

/-- Membership in the chunked-and-unioned search result is membership in
some candidate shard's scan. -/
theorem mem_findLinesContaining (L D : Nat) (pats : List (List Char))
    (dir : List Char → Option (List Nat)) (cores : Nat) (q : List Nat)
    (style : SearchStyle) (x : List Nat) :
    x ∈ findLinesContaining L D pats dir cores q style ↔
      ∃ ch ∈ chunkList (chunksCount (indexFilesFor L D pats dir q).length cores)
          (indexFilesFor L D pats dir q), ∃ c ∈ ch, x ∈ scanShard style q c := by
  show x ∈ ((chunkList (chunksCount (indexFilesFor L D pats dir q).length cores)
      (indexFilesFor L D pats dir q)).map
      (fun ch => (ch.map (scanShard style q)).flatten)).flatten ↔ _
  rw [List.mem_flatten]
  constructor
  · rintro ⟨l, hl, hxl⟩
    obtain ⟨ch, hch, rfl⟩ := List.mem_map.mp hl
    rw [List.mem_flatten] at hxl
    obtain ⟨m, hm, hxm⟩ := hxl
    obtain ⟨c, hc, rfl⟩ := List.mem_map.mp hm
    exact ⟨ch, hch, c, hc, hxm⟩
  · rintro ⟨ch, hch, c, hc, hx⟩
    refine ⟨(ch.map (scanShard style q)).flatten, List.mem_map.mpr ⟨ch, hch, rfl⟩, ?_⟩
    rw [List.mem_flatten]
    exact ⟨scanShard style q c, List.mem_map.mpr ⟨c, hc, rfl⟩, hx⟩

/-- C7: on well-formed index directories (every shard file is a
newline-delimited file of newline-free ASCII lines of at most
`MAX_LINE_LENGTH` bytes) and a nonempty newline-free ASCII query — the
byte-preserving cases of the claim — the result set of
`find_lines_containing` is monotone across the styles:
Strict ⊆ CaseInsensitive ⊆ Fuzzy. -/
theorem c7_search_style_monotone (L D : Nat) (pats : List (List Char))
    (dir : List Char → Option (List Nat)) (cores : Nat) (q : List Nat)
    (hdir : ∀ k c, dir k = some c → ∃ ls, c = lineUnits nlByte ls ∧
      ∀ l ∈ ls, nlByte ∉ l ∧ l.length ≤ maxLineLength ∧ ∀ b ∈ l, b < 128)
    (hq1 : q ≠ []) (hqnl : nlByte ∉ q) (hqa : ∀ b ∈ q, b < 128) :
    (∀ x ∈ findLinesContaining L D pats dir cores q .strict,
        x ∈ findLinesContaining L D pats dir cores q .caseInsensitive) ∧
      ∀ x ∈ findLinesContaining L D pats dir cores q .caseInsensitive,
        x ∈ findLinesContaining L D pats dir cores q .fuzzy := by
  constructor
  · intro x hx
    rw [mem_findLinesContaining] at hx ⊢
    obtain ⟨ch, hch, c, hc, hxc⟩ := hx
    refine ⟨ch, hch, c, hc, ?_⟩
    have hcmem : c ∈ indexFilesFor L D pats dir q :=
      chunkListAux_sub _ _ _ ch hch c hc
    obtain ⟨k, hk, hkc⟩ := List.mem_filterMap.mp hcmem
    obtain ⟨ls, rfl, hWF⟩ := hdir k c hkc
    exact scanShard_strict_sub_ci ls q hWF hq1 hqnl hqa x hxc
  · intro x hx
    rw [mem_findLinesContaining] at hx ⊢
    obtain ⟨ch, hch, c, hc, hxc⟩ := hx
    refine ⟨ch, hch, c, hc, ?_⟩
    have hcmem : c ∈ indexFilesFor L D pats dir q :=
      chunkListAux_sub _ _ _ ch hch c hc
    obtain ⟨k, hk, hkc⟩ := List.mem_filterMap.mp hcmem
    obtain ⟨ls, rfl, hWF⟩ := hdir k c hkc
    exact scanShard_ci_sub_fuzzy ls q hWF hq1 hqnl hqa x hxc

/-- Witness for `c7_search_style_monotone`: a one-shard directory holding
the line `pass` and the query `pas`. -/
theorem c7_search_style_monotone_witness :
    ((∀ k c, (fun _ : List Char =>
          some (lineUnits nlByte [[112, 97, 115, 115]])) k = some c →
        ∃ ls, c = lineUnits nlByte ls ∧ ∀ l ∈ ls, nlByte ∉ l ∧
          l.length ≤ maxLineLength ∧ ∀ b ∈ l, b < 128) ∧
      ([112, 97, 115] : List Nat) ≠ [] ∧
      nlByte ∉ ([112, 97, 115] : List Nat) ∧
      ∀ b ∈ ([112, 97, 115] : List Nat), b < 128) ∧
    ((∀ x ∈ findLinesContaining 3 1 (initAutomatonPatterns 3 enCommonWords)
          (fun _ => some (lineUnits nlByte [[112, 97, 115, 115]])) 2
          [112, 97, 115] .strict,
        x ∈ findLinesContaining 3 1 (initAutomatonPatterns 3 enCommonWords)
          (fun _ => some (lineUnits nlByte [[112, 97, 115, 115]])) 2
          [112, 97, 115] .caseInsensitive) ∧
      ∀ x ∈ findLinesContaining 3 1 (initAutomatonPatterns 3 enCommonWords)
          (fun _ => some (lineUnits nlByte [[112, 97, 115, 115]])) 2
          [112, 97, 115] .caseInsensitive,
        x ∈ findLinesContaining 3 1 (initAutomatonPatterns 3 enCommonWords)
          (fun _ => some (lineUnits nlByte [[112, 97, 115, 115]])) 2
          [112, 97, 115] .fuzzy) :=
  ⟨⟨fun k c h => ⟨[[112, 97, 115, 115]], (Option.some.inj h).symm, by decide⟩,
      by decide, by decide, by decide⟩,
    c7_search_style_monotone 3 1 (initAutomatonPatterns 3 enCommonWords)
      (fun _ => some (lineUnits nlByte [[112, 97, 115, 115]])) 2 [112, 97, 115]
      (fun k c h => ⟨[[112, 97, 115, 115]], (Option.some.inj h).symm, by decide⟩)
      (by decide) (by decide) (by decide)⟩

end RockYou
